import Mathlib

/-!
Shallow embedding of the sparse-spectra core of `src/blink.py` (BLINK):
the peak-list normalizer `remove_duplicate_ions`, the binner
`discretize_spectra`, the `network_kernel` expander, and the scoring engine
`score_sparse_spectra`, together with theorems settling the specification
claims about them.

Modelling conventions:
* numpy floats are modelled by `ℚ` where the program only does field
  arithmetic and comparisons (m/z values, bin widths, tolerances), and by
  `ℝ` where it takes square roots and real powers (intensity
  normalization);
* numpy/scipy calls that raise (`np.min` of an empty array,
  `scipy.sparse.coo_matrix` given a negative index or mismatched array
  lengths, out-of-range fancy indexing) are modelled by `Option`, `none`
  standing for the raised exception;
* the parallel arrays `ic` / `spec_ids` / `mz` of a store are modelled as
  one list of `SEntry` records (the arrays are always co-indexed in the
  source);
* sparse matrices are lists of `(row, col, value)` triples; the sparse
  product is the sum over coordinate-matching pairs, which is what
  `csr.dot(csc)` computes after duplicate summing.
-/

namespace Blink

/-! ### Definitions: the embedded program -/

/-- Sum of `f` over a list (`(l.map f).sum`); the basic accumulator used to
state sparse products. -/
def sumL {α : Type*} {β : Type*} [AddCommMonoid β] (l : List α) (f : α → β) : β :=
  (l.map f).sum

/-- `np.rint`: round half to even (banker's rounding). -/
def rint (q : ℚ) : ℤ :=
  let f := ⌊q⌋
  let r := q - f
  if r < 1/2 then f
  else if 1/2 < r then f + 1
  else if f % 2 = 0 then f else f + 1

/-- Python `int(...)` applied to a float: truncation toward zero. -/
def pyint (q : ℚ) : ℤ := if 0 ≤ q then ⌊q⌋ else ⌈q⌉

/-- `np.arange(a, b)` over the integers. -/
def arange (a b : ℤ) : List ℤ := (List.range (b - a).toNat).map (fun (n : ℕ) => a + (n : ℤ))

/-- One peak: (m/z, intensity). A spectrum is its list of peaks, the two
rows of the source's 2×M array zipped together. -/
abbrev Peak := ℚ × ℚ

abbrev Spectrum := List Peak

/-- `np.diff(mz, prepend=0)`: consecutive differences with a 0 prepended. -/
def diffsPrepend0 (mz : List ℚ) : List ℚ :=
  (mz.zip (0 :: mz)).map fun p => p.1 - p.2

/-- The `bad_ones` membership test: `min(np.diff(s[0], prepend=0)) <= min_diff`.
On a nonempty spectrum this is `∃ d ≤ min_diff` among the prepended diffs
(`np.min` raises on an empty spectrum; empty spectra are treated as not bad). -/
def isBad (s : Spectrum) (min_diff : ℚ) : Bool :=
  (diffsPrepend0 (s.map Prod.fst)).any fun d => d ≤ min_diff

/-- `np.argwhere(np.diff(mz) < min_diff)`: indices of adjacent pairs whose
gap is strictly below `min_diff`, ascending. -/
def violIdx (s : Spectrum) (min_diff : ℚ) : List ℕ :=
  (List.range (s.length - 1)).filter fun i =>
    ((s.getD (i + 1) 0).1 - (s.getD i 0).1 < min_diff : Bool)

/-- The slice assignment `arr[i:i+2] = v` on both rows. -/
def setPair (l : Spectrum) (i : ℕ) (v : Peak) : Spectrum := (l.set i v).set (i + 1) v

/-- One loop iteration: average the m/z pair at `i, i+1` and sum the
intensities, writing the merged peak to both slots. -/
def mergeAt (l : Spectrum) (i : ℕ) : Spectrum :=
  let a := l.getD i 0
  let b := l.getD (i + 1) 0
  setPair l i ((a.1 + b.1) / 2, a.2 + b.2)

/-- `np.delete(arr, idx)`: drop the positions listed in `idx`. -/
def deleteIdxs (l : Spectrum) (idx : List ℕ) : Spectrum :=
  (l.enum.filter fun p => ¬ p.1 ∈ idx).map Prod.snd

/-- The body run on one flagged spectrum: merge each violating pair in
descending index order, then delete the left slots of the violating pairs. -/
def dedupSpectrum (s : Spectrum) (min_diff : ℚ) : Spectrum :=
  let idx := violIdx s min_diff
  deleteIdxs (idx.reverse.foldl mergeAt s) idx

/-- `remove_duplicate_ions(mzis, min_diff)`. Spectra are processed
independently (the reversed iteration over `bad_ones` only orders the
in-place updates), so the result is a per-spectrum map. -/
def remove_duplicate_ions (mzis : List Spectrum) (min_diff : ℚ) : List Spectrum :=
  mzis.map fun s => if isBad s min_diff then dedupSpectrum s min_diff else s

/-- One entry of the packed sparse store: `(spec_ids[i], mz[i], ic[i])`. -/
structure SEntry where
  spec : ℕ
  col : ℤ
  re : ℝ
  im : ℝ

/-- The dict returned by `discretize_spectra` (`metadata`, `blanks` and the
`trim_empty` path are omitted: no claim concerns them). -/
structure SStore where
  ic : List SEntry
  pmz : List ℚ
  shift : ℤ
  bin_width : ℚ
  intensity_power : ℝ

/-- Concatenation of all spectra with their spectrum ids
(`np.concatenate` plus `spec_ids`), starting at id `n`. -/
def withIds (n : ℕ) : List Spectrum → List (ℕ × Peak)
  | [] => []
  | s :: rest => (s.map fun pk => (n, pk)) ++ withIds (n + 1) rest

/-- `np.linalg.norm`: the L2 norm of a vector. -/
noncomputable def norm2 (l : List ℝ) : ℝ := Real.sqrt ((l.map fun x => x ^ 2).sum)

/-- `inorm`: per-spectrum reciprocal norm of the power-raised intensities. -/
noncomputable def inorms (mzis : List Spectrum) (p : ℝ) : List ℝ :=
  mzis.map fun s => 1 / norm2 (s.map fun pk => ((pk.2 : ℝ)) ^ p)

/-- `cnorm`: `m**.5 / norm(ones(m))` for a spectrum with `m` peaks. -/
noncomputable def cnorms (mzis : List Spectrum) : List ℝ :=
  mzis.map fun s => ((s.length : ℝ)) ^ ((1 : ℝ) / 2) / norm2 (List.replicate s.length 1)

/-- `np.rint(mz / bin_width)`: a peak's m/z bin. -/
def mzBin (w : ℚ) (pk : Peak) : ℤ := rint (pk.1 / w)

/-- `np.rint(pmz / bin_width) - mz_bin`: a peak's neutral-loss bin. -/
def nlBin (w : ℚ) (pmz : ℚ) (pk : Peak) : ℤ := rint (pmz / w) - mzBin w pk

/-- All neutral-loss bins (the imaginary parts of `mz_bin_idxs`), in
concatenation order. -/
def nlBins (mzis : List Spectrum) (pmzs : List ℚ) (w : ℚ) : List ℤ :=
  (withIds 0 mzis).map fun ip => nlBin w (pmzs.getD ip.1 0) ip.2

/-- `shift = -mz_bin_idxs.imag.min()`. -/
def discShift (mzis : List Spectrum) (pmzs : List ℚ) (w : ℚ) : ℤ :=
  -(((nlBins mzis pmzs w).min?).getD 0)

/-- The real-valued (intensity) entries: one per peak, at column
`mz_bin + shift`, value `inorm * intensity**p`. -/
noncomputable def reEntries (mzis : List Spectrum) (p : ℝ) (w : ℚ) (shift : ℤ) :
    List SEntry :=
  (withIds 0 mzis).map fun ip =>
    ⟨ip.1, mzBin w ip.2 + shift, (inorms mzis p).getD ip.1 0 * ((ip.2.2 : ℝ)) ^ p, 0⟩

/-- The imaginary-valued (count) entries: one per peak, at column
`nl_bin + shift`, value `cnorm * 1j`. -/
noncomputable def imEntries (mzis : List Spectrum) (pmzs : List ℚ) (w : ℚ) (shift : ℤ) :
    List SEntry :=
  (withIds 0 mzis).map fun ip =>
    ⟨ip.1, nlBin w (pmzs.getD ip.1 0) ip.2 + shift, 0, (cnorms mzis).getD ip.1 0⟩

/-- The store built from the (already deduplicated) spectra. -/
noncomputable def discretizeCore (mzis : List Spectrum) (pmzs : List ℚ)
    (bin_width : ℚ) (intensity_power : ℝ) : Option SStore :=
  if withIds 0 mzis = [] then none
  else if ¬ ((withIds 0 mzis).all fun ip => ip.1 < pmzs.length) then none
  else
    let shift := discShift mzis pmzs bin_width
    let ic := reEntries mzis intensity_power bin_width shift ++
              imEntries mzis pmzs bin_width shift
    if ic.all fun e => 0 ≤ e.col then
      some { ic := ic, pmz := pmzs, shift := shift, bin_width := bin_width,
             intensity_power := intensity_power }
    else none

/-- `discretize_spectra(mzis, pmzs, bin_width, intensity_power,
remove_duplicates)`.  `none` models the exceptions: `np.concatenate` /
`.min()` on an empty peak collection, out-of-range fancy indexing into
`pmzs`, and `scipy.sparse.coo_matrix` rejecting a negative column index. -/
noncomputable def discretize_spectra (mzis0 : List Spectrum) (pmzs : List ℚ)
    (bin_width : ℚ) (intensity_power : ℝ) (remove_duplicates : Bool) : Option SStore :=
  discretizeCore
    (if remove_duplicates then remove_duplicate_ions mzis0 (2 * bin_width) else mzis0)
    pmzs bin_width intensity_power

/-- The store a single peak `(100, 1)` with precursor 150 discretizes to
(`w = 0.001`, `p = 0.5`): m/z bin 100000, NL bin 50000, `shift = -50000`,
normalized intensity 1, count weight 1. -/
noncomputable def exStore1 : SStore :=
  { ic := [⟨0, 50000, 1, 0⟩, ⟨0, 0, 0, 1⟩], pmz := [150], shift := -50000,
    bin_width := 1/1000, intensity_power := (1:ℝ)/2 }

/-- Sort ascending then symmetrize the absolute mass differences and drop
one middle 0, as the source does; `none` models the `IndexError` raised by
`mass_diffs[len(mass_diffs)//2]` on an empty list. -/
def symDiffs (mass_diffs : List ℚ) : Option (List ℚ) :=
  let s := (mass_diffs.map fun d => |d|).insertionSort (· ≤ ·)
  let m := (s.reverse.map fun d => -d) ++ s
  match m[m.length / 2]? with
  | none => none
  | some x => some (if x = 0 then m.eraseIdx (m.length / 2) else m)

/-- `np.unique(np.sort(l))`: ascending, duplicate-free. -/
def dedupSort (l : List ℤ) : List ℤ := (l.insertionSort (· ≤ ·)).dedup

/-- The recursive `react`: `react_steps`-fold outer sums of the binned
mass differences (the source diverges for `react_steps = 0`; that value is
never passed). -/
def react (md : List ℤ) : ℕ → List ℤ
  | 0 => md
  | 1 => md
  | (n + 2) => md.flatMap fun a => (react md (n + 1)).map fun b => a + b

/-- The flattened offset multiset Ω applied by the kernel: reacted binned
mass differences smeared over
`np.arange(-bin_num//2+1, bin_num//2+1)` with
`bin_num = int(2*(tolerance/bin_width)-1)`. -/
def netOffsets (w tolerance : ℚ) (mass_diffs : List ℚ) (react_steps : ℕ) :
    Option (List ℤ) :=
  (symDiffs mass_diffs).map fun sd =>
    let bin_num := pyint (2 * (tolerance / w) - 1)
    let dReact := dedupSort (react (sd.map fun d => rint (d / w)) react_steps)
    dReact.flatMap fun d =>
      (arange ((-bin_num).fdiv 2 + 1) (bin_num.fdiv 2 + 1)).map fun t => d + t

/-- The `_net` fields the kernel adds to a store: the expanded entry list
(with the new minimum subtracted from every column) and `shift_net`. -/
structure NetData where
  entries : List SEntry
  shift_net : ℤ

/-- The kernel's outer sums before the minimum subtraction:
`ic_net`, `spec_ids_net` and `mz_net` as one entry list. -/
def rawNet (l : List SEntry) (mds : List ℤ) : List SEntry :=
  l.flatMap fun e => mds.map fun d => SEntry.mk e.spec (e.col + d) e.re e.im

/-- `network_kernel(S, tolerance, mass_diffs, react_steps)`.  `none`
models the `IndexError` on empty `mass_diffs` and the `ValueError` from
`S['mz_net'].min()` when the expansion is empty. -/
def network_kernel (S : SStore) (tolerance : ℚ) (mass_diffs : List ℚ)
    (react_steps : ℕ) : Option NetData :=
  match netOffsets S.bin_width tolerance mass_diffs react_steps with
  | none => none
  | some mds =>
    match ((rawNet S.ic mds).map SEntry.col).min? with
    | none => none
    | some mn => some ⟨(rawNet S.ic mds).map fun e => { e with col := e.col - mn },
                       S.shift - mn⟩

/-- `ordered = S1['ic'].size < S2['ic'].size` (blink.py line 222). -/
def scoreOrdered (S1 S2 : SStore) : Bool := S1.ic.length < S2.ic.length

/-- C7 witness: a concrete store with bin width 0.001 and a one-entry
sparse array; tolerance 0.0005 is below one bin, and the kernel fails. -/
noncomputable def exStoreK : SStore :=
  { ic := [⟨0, 5, 1, 0⟩], pmz := [1], shift := 0, bin_width := 1/1000,
    intensity_power := (1:ℝ)/2 }

/-- C7 counterexample: the claim says any tolerance below one bin width is
legal for the expander and yields well-defined (possibly empty) derived
arrays; on the concrete store `exStoreCx` with `bin_width = 0.001` and
`tolerance = 0.0005` the expander instead fails (`.min()` of the empty
expansion raises), i.e. returns no derived arrays at all. -/
noncomputable def exStoreCx : SStore :=
  { ic := [⟨0, 7, 1, 0⟩, ⟨0, 2, 0, 1⟩], pmz := [3], shift := 0, bin_width := 1/1000,
    intensity_power := (1:ℝ)/2 }

/-- C4 counterexample: concrete stores with `nnz(Q) = 1 < 2 = nnz(R)`.
The code's `ordered` is true although the claim's formula
`nnz(R) < nnz(Q)` is false, and the side that gets expanded (`Q`) is the
strictly smaller one, not the larger one. -/
noncomputable def exQ : SStore :=
  { ic := [⟨0, 4, 1, 0⟩], pmz := [1], shift := 0, bin_width := 1/1000,
    intensity_power := (1:ℝ)/2 }

noncomputable def exR : SStore :=
  { ic := [⟨0, 4, 1, 0⟩, ⟨0, 9, 0, 1⟩], pmz := [1], shift := 0, bin_width := 1/1000,
    intensity_power := (1:ℝ)/2 }

/-- One stored triple of a scipy `coo_matrix`. -/
structure CooE (α : Type) where
  r : ℤ
  c : ℤ
  v : α

/-- The dict `E` built by `expand_sparse_spectra`. -/
structure Expanded where
  mzi : List (CooE ℝ)
  nli : List (CooE ℝ)
  mzc : List (CooE ℤ)
  nlc : List (CooE ℤ)

/-- numpy's float→int cast (`dtype=int` on the count matrices): truncation
toward zero. -/
noncomputable def truncR (x : ℝ) : ℤ := if 0 ≤ x then ⌊x⌋ else ⌈x⌉

/-- The entries selected by the mask `ic.real > 0`. -/
noncomputable def posRe (l : List SEntry) : List SEntry := l.filter fun e => 0 < e.re

/-- The entries selected by the mask `ic.imag > 0`. -/
noncomputable def posIm (l : List SEntry) : List SEntry := l.filter fun e => 0 < e.im

/-- `expand_sparse_spectra` on an entry list (the base arrays or the
`_net` arrays).  `mzi` and `nlc` pair values and coordinates from the same
mask; `nli` and `mzc` pair the `i` (resp. `c`) values positionally with
the other mask's coordinates, which `coo_matrix` only accepts when the two
masks select equally many entries.  `none` models the `coo_matrix`
exceptions: mismatched array lengths or a negative row index. -/
noncomputable def expand_sparse_spectra (l : List SEntry) : Option Expanded :=
  let R := posRe l
  let I := posIm l
  if R.length = I.length ∧ (∀ e ∈ R, 0 ≤ e.col) ∧ (∀ e ∈ I, 0 ≤ e.col) then
    some { mzi := R.map fun e => ⟨e.col, (e.spec : ℤ), e.re⟩
         , nli := (R.zip I).map fun ab => ⟨ab.2.col, (ab.2.spec : ℤ), ab.1.re⟩
         , mzc := (R.zip I).map fun ab => ⟨ab.1.col, (ab.1.spec : ℤ), truncR ab.2.im⟩
         , nlc := I.map fun e => ⟨e.col, (e.spec : ℤ), truncR e.im⟩ }
  else none

/-- `E1[k].T`: transpose a coordinate list. -/
def transposeC {α : Type} (l : List (CooE α)) : List (CooE α) :=
  l.map fun e => ⟨e.c, e.r, e.v⟩

/-- `sp.hstack([zero_block, v1])`: prepending `k` empty columns shifts
every stored column by `k`. -/
def padCols {α : Type} (k : ℤ) (l : List (CooE α)) : List (CooE α) :=
  l.map fun e => ⟨e.r, e.c + k, e.v⟩

/-- `sp.vstack([zero_block, v2])`: prepending `k` empty rows shifts every
stored row by `k`. -/
def padRows {α : Type} (k : ℤ) (l : List (CooE α)) : List (CooE α) :=
  l.map fun e => ⟨e.r + k, e.c, e.v⟩

/-- The shift alignment of blink.py lines 237–240 (the subsequent
`resize` to the common `max_mz` adds no entries). -/
def alignPair {α : Type} (v1 v2 : List (CooE α)) (sh1 sh2 : ℤ) :
    List (CooE α) × List (CooE α) :=
  (if sh1 < sh2 then padCols (sh2 - sh1) v1 else v1,
   if sh2 < sh1 then padRows (sh1 - sh2) v2 else v2)

/-- Entry `(q, r)` of `v1.tocsr().dot(v2.tocsc())`: coo→csr/csc conversion
sums duplicate coordinates, so the product entry is the sum of `v1*v2`
over all pairs whose inner coordinates meet. -/
def cooDot {α : Type} [NonUnitalNonAssocSemiring α] (A B : List (CooE α)) (q r : ℤ) : α :=
  sumL A fun a => sumL B fun b =>
    if a.r = q ∧ b.c = r ∧ a.c = b.r then a.v * b.v else 0

/-- One iteration of the loop over the keys `mzi/nli/mzc/nlc`:
`v1, v2 = E1[k].T, E2[k]`, shift-align, resize, multiply; read off entry
`(q, r)`. -/
def scoreKey {α : Type} [NonUnitalNonAssocSemiring α] (m1 m2 : List (CooE α))
    (sh1 sh2 q r : ℤ) : α :=
  let p := alignPair (transposeC m1) m2 sh1 sh2
  cooDot p.1 p.2 q r

/-- The four result matrices of `score_sparse_spectra`, read entrywise. -/
structure ScoreRes where
  mzi : ℤ → ℤ → ℝ
  nli : ℤ → ℤ → ℝ
  mzc : ℤ → ℤ → ℤ
  nlc : ℤ → ℤ → ℤ

/-- `score_sparse_spectra(S1, S2, tolerance, mass_diffs, react_steps)`:
expand the side chosen by `ordered`, split both sides, shift-align and
multiply each of the four keys. -/
noncomputable def score_sparse_spectra (S1 S2 : SStore) (tolerance : ℚ)
    (mass_diffs : List ℚ) (react_steps : ℕ) : Option ScoreRes :=
  (network_kernel (if scoreOrdered S1 S2 then S1 else S2) tolerance mass_diffs
      react_steps).bind fun net =>
    (expand_sparse_spectra (if scoreOrdered S1 S2 then net.entries else S1.ic)).bind
      fun E1 =>
    (expand_sparse_spectra (if scoreOrdered S1 S2 then S2.ic else net.entries)).bind
      fun E2 =>
    let sh1 := if scoreOrdered S1 S2 then net.shift_net else S1.shift
    let sh2 := if scoreOrdered S1 S2 then S2.shift else net.shift_net
    some { mzi := scoreKey E1.mzi E2.mzi sh1 sh2
         , nli := scoreKey E1.nli E2.nli sh1 sh2
         , mzc := scoreKey E1.mzc E2.mzc sh1 sh2
         , nlc := scoreKey E1.nlc E2.nlc sh1 sh2 }

/-- The store of the spectrum `[(100, 1), (200, 0)]` (one zero-intensity
peak), precursor 150, `w = 0.001`, `p = 0.5`: the zero-intensity peak's
m/z entry has real part 0, so the `real > 0` mask selects one entry while
the `imag > 0` mask selects two. -/
noncomputable def exStoreZ : SStore :=
  { ic := [⟨0, 150000, 1, 0⟩, ⟨0, 250000, 0, 0⟩, ⟨0, 100000, 0, 1⟩, ⟨0, 0, 0, 1⟩],
    pmz := [150], shift := 50000, bin_width := 1/1000, intensity_power := (1:ℝ)/2 }

/-- The kernel expansion written on coordinate triples. -/
def netExp {α : Type} (Ω : List ℤ) (mn : ℤ) (l : List (CooE α)) : List (CooE α) :=
  l.flatMap fun t => Ω.map fun d => ⟨t.r + d - mn, t.c, t.v⟩

/-- Directional offset count: how many kernel offsets connect unshifted
axis value `x` on the query side to `y` on the reference side (`flip` is
the code's `ordered`, i.e. the query side was expanded). -/
def cntDir (Ω : List ℤ) (flip : Bool) (x y : ℤ) : ℕ :=
  if flip then Ω.count (y - x) else Ω.count (x - y)

/-- The positionally paired (intensity entry, count entry) list of a
store. -/
noncomputable def pairs (S : SStore) : List (SEntry × SEntry) :=
  (posRe S.ic).zip (posIm S.ic)

/-- What entry `(q, r)` of the `mzi` output is: a kernel-weighted double
sum of normalized intensity products over the m/z axis. -/
noncomputable def mziFormula (S1 S2 : SStore) (Ω : List ℤ) (flip : Bool) (q r : ℤ) : ℝ :=
  sumL (posRe S1.ic) fun a => sumL (posRe S2.ic) fun b =>
    if (a.spec : ℤ) = q ∧ (b.spec : ℤ) = r then
      (cntDir Ω flip (a.col - S1.shift) (b.col - S2.shift)) • (a.re * b.re) else 0

/-- Entry `(q, r)` of the `nli` output: intensity products placed on the
neutral-loss axis through the positional pairing. -/
noncomputable def nliFormula (S1 S2 : SStore) (Ω : List ℤ) (flip : Bool) (q r : ℤ) : ℝ :=
  sumL (pairs S1) fun u => sumL (pairs S2) fun v =>
    if (u.2.spec : ℤ) = q ∧ (v.2.spec : ℤ) = r then
      (cntDir Ω flip (u.2.col - S1.shift) (v.2.col - S2.shift)) • (u.1.re * v.1.re) else 0

/-- Entry `(q, r)` of the `mzc` output: truncated count products on the
m/z axis through the positional pairing. -/
noncomputable def mzcFormula (S1 S2 : SStore) (Ω : List ℤ) (flip : Bool) (q r : ℤ) : ℤ :=
  sumL (pairs S1) fun u => sumL (pairs S2) fun v =>
    if (u.1.spec : ℤ) = q ∧ (v.1.spec : ℤ) = r then
      (cntDir Ω flip (u.1.col - S1.shift) (v.1.col - S2.shift)) •
        (truncR u.2.im * truncR v.2.im) else 0

/-- Entry `(q, r)` of the `nlc` output. -/
noncomputable def nlcFormula (S1 S2 : SStore) (Ω : List ℤ) (flip : Bool) (q r : ℤ) : ℤ :=
  sumL (posIm S1.ic) fun a => sumL (posIm S2.ic) fun b =>
    if (a.spec : ℤ) = q ∧ (b.spec : ℤ) = r then
      (cntDir Ω flip (a.col - S1.shift) (b.col - S2.shift)) •
        (truncR a.im * truncR b.im) else 0

noncomputable def exS1m : SStore :=
  { ic := [⟨0, 116, 1, 0⟩, ⟨0, 200, 0, 1⟩], pmz := [1], shift := 0, bin_width := 1/1000,
    intensity_power := (1:ℝ)/2 }

noncomputable def exS2m : SStore :=
  { ic := [⟨0, 100, 1, 0⟩, ⟨0, 300, 0, 1⟩], pmz := [1], shift := 0, bin_width := 1/1000,
    intensity_power := (1:ℝ)/2 }

noncomputable def resA : ScoreRes :=
  { mzi := scoreKey [⟨116, 0, 1⟩] [⟨0, 0, 1⟩, ⟨32, 0, 1⟩] 0 (-84)
  , nli := scoreKey [⟨200, 0, 1⟩] [⟨200, 0, 1⟩, ⟨232, 0, 1⟩] 0 (-84)
  , mzc := scoreKey [⟨116, 0, 1⟩] [⟨0, 0, 1⟩, ⟨32, 0, 1⟩] 0 (-84)
  , nlc := scoreKey [⟨200, 0, 1⟩] [⟨200, 0, 1⟩, ⟨232, 0, 1⟩] 0 (-84) }

noncomputable def resB : ScoreRes :=
  { mzi := scoreKey [⟨116, 0, 1⟩] [⟨0, 0, 1⟩, ⟨32, 0, 1⟩, ⟨64, 0, 1⟩] 0 (-68)
  , nli := scoreKey [⟨200, 0, 1⟩] [⟨200, 0, 1⟩, ⟨232, 0, 1⟩, ⟨264, 0, 1⟩] 0 (-68)
  , mzc := scoreKey [⟨116, 0, 1⟩] [⟨0, 0, 1⟩, ⟨32, 0, 1⟩, ⟨64, 0, 1⟩] 0 (-68)
  , nlc := scoreKey [⟨200, 0, 1⟩] [⟨200, 0, 1⟩, ⟨232, 0, 1⟩, ⟨264, 0, 1⟩] 0 (-68) }

noncomputable def resC : ScoreRes :=
  { mzi := scoreKey [⟨116, 0, 1⟩] [⟨0, 0, 1⟩, ⟨16, 0, 1⟩, ⟨32, 0, 1⟩] 0 (-84)
  , nli := scoreKey [⟨200, 0, 1⟩] [⟨200, 0, 1⟩, ⟨216, 0, 1⟩, ⟨232, 0, 1⟩] 0 (-84)
  , mzc := scoreKey [⟨116, 0, 1⟩] [⟨0, 0, 1⟩, ⟨16, 0, 1⟩, ⟨32, 0, 1⟩] 0 (-84)
  , nlc := scoreKey [⟨200, 0, 1⟩] [⟨200, 0, 1⟩, ⟨216, 0, 1⟩, ⟨232, 0, 1⟩] 0 (-84) }

/-- The positivity hypothesis on a spectrum collection: every spectrum is
nonempty and every intensity is positive. -/
def PosSpectra (mzis : List Spectrum) : Prop :=
  ∀ s ∈ mzis, s ≠ [] ∧ ∀ pk ∈ s, 0 < pk.2

/-- The count of (kernel-expanded) matching bins between two indexed bin
lists: for each pair of bins with the requested spectrum ids, the number
of kernel offsets carrying one onto the other. -/
def matchCount (Ω : List ℤ) (flip : Bool) (B1 B2 : List (ℕ × ℤ)) (q r : ℤ) : ℤ :=
  sumL B1 fun a => sumL B2 fun b =>
    if (a.1 : ℤ) = q ∧ (b.1 : ℤ) = r then (cntDir Ω flip a.2 b.2 : ℤ) else 0

/-- Every peak's m/z bin, tagged with its spectrum id. -/
def mzBinsIdx (mzis : List Spectrum) (w : ℚ) : List (ℕ × ℤ) :=
  (withIds 0 mzis).map fun ip => (ip.1, mzBin w ip.2)

/-- Every peak's neutral-loss bin, tagged with its spectrum id. -/
def nlBinsIdx (mzis : List Spectrum) (pmzs : List ℚ) (w : ℚ) : List (ℕ × ℤ) :=
  (withIds 0 mzis).map fun ip => (ip.1, nlBin w (pmzs.getD ip.1 0) ip.2)

noncomputable def exStoreW : SStore :=
  { ic := [⟨0, 100000, 1, 0⟩, ⟨0, 0, 0, 1⟩], pmz := [100], shift := 0,
    bin_width := 1/1000, intensity_power := (1:ℝ)/2 }

noncomputable def resW : ScoreRes :=
  { mzi := scoreKey [⟨100000, 0, 1⟩] [⟨100000, 0, 1⟩] 0 0
  , nli := scoreKey [⟨0, 0, 1⟩] [⟨0, 0, 1⟩] 0 0
  , mzc := scoreKey [⟨100000, 0, 1⟩] [⟨100000, 0, 1⟩] 0 0
  , nlc := scoreKey [⟨0, 0, 1⟩] [⟨0, 0, 1⟩] 0 0 }

noncomputable def exStoreC2 : SStore :=
  { ic := [⟨0, 100000, 3/5, 0⟩, ⟨0, 100000, 4/5, 0⟩, ⟨0, 0, 0, 1⟩, ⟨0, 0, 0, 1⟩],
    pmz := [100], shift := 0, bin_width := 1/1000, intensity_power := (1:ℝ)/2 }

noncomputable def resX : ScoreRes :=
  { mzi := scoreKey [⟨100000, 0, 3/5⟩, ⟨100000, 0, 4/5⟩]
      [⟨100000, 0, 3/5⟩, ⟨100000, 0, 4/5⟩] 0 0
  , nli := scoreKey [⟨0, 0, 3/5⟩, ⟨0, 0, 4/5⟩] [⟨0, 0, 3/5⟩, ⟨0, 0, 4/5⟩] 0 0
  , mzc := scoreKey [⟨100000, 0, 1⟩, ⟨100000, 0, 1⟩] [⟨100000, 0, 1⟩, ⟨100000, 0, 1⟩] 0 0
  , nlc := scoreKey [⟨0, 0, 1⟩, ⟨0, 0, 1⟩] [⟨0, 0, 1⟩, ⟨0, 0, 1⟩] 0 0 }

/-! ### Theorems -/

@[simp] theorem sumL_nil {α β : Type*} [AddCommMonoid β] (f : α → β) :
    sumL ([] : List α) f = 0 := rfl

@[simp] theorem sumL_cons {α β : Type*} [AddCommMonoid β] (a : α) (l : List α) (f : α → β) :
    sumL (a :: l) f = f a + sumL l f := by
  simp [sumL]

theorem sumL_append {α β : Type*} [AddCommMonoid β] (l₁ l₂ : List α) (f : α → β) :
    sumL (l₁ ++ l₂) f = sumL l₁ f + sumL l₂ f := by
  simp [sumL]

theorem sumL_map {α γ β : Type*} [AddCommMonoid β] (g : α → γ) (l : List α) (f : γ → β) :
    sumL (l.map g) f = sumL l (fun a => f (g a)) := by
  rw [sumL, sumL, List.map_map]
  rfl

@[simp] theorem sumL_zero {α β : Type*} [AddCommMonoid β] (l : List α) :
    sumL l (fun _ => (0 : β)) = 0 := by
  induction l with
  | nil => rfl
  | cons a t ih => simp [ih]

theorem sumL_add {α β : Type*} [AddCommMonoid β] (l : List α) (f g : α → β) :
    sumL l (fun a => f a + g a) = sumL l f + sumL l g := by
  induction l with
  | nil => simp
  | cons a t ih =>
    simp only [sumL_cons, ih]
    abel

theorem sumL_flatMap {α γ β : Type*} [AddCommMonoid β] (l : List α) (g : α → List γ)
    (f : γ → β) : sumL (l.flatMap g) f = sumL l (fun a => sumL (g a) f) := by
  induction l with
  | nil => rfl
  | cons a t ih => simp [List.flatMap_cons, sumL_append, ih]

theorem sumL_congr {α β : Type*} [AddCommMonoid β] {l : List α} {f g : α → β}
    (h : ∀ a ∈ l, f a = g a) : sumL l f = sumL l g := by
  induction l with
  | nil => rfl
  | cons a t ih =>
    simp only [sumL_cons, h a (List.mem_cons_self a t)]
    rw [ih (fun b hb => h b (List.mem_cons_of_mem a hb))]

theorem sumL_nonneg {α β : Type*} [OrderedAddCommMonoid β] {l : List α} {f : α → β}
    (h : ∀ a ∈ l, 0 ≤ f a) : 0 ≤ sumL l f := by
  induction l with
  | nil => simp
  | cons a t ih =>
    have := ih (fun b hb => h b (List.mem_cons_of_mem a hb))
    have ha := h a (List.mem_cons_self a t)
    simpa using add_nonneg ha this

theorem sumL_le_sumL {α β : Type*} [OrderedAddCommMonoid β] {l : List α} {f g : α → β}
    (h : ∀ a ∈ l, f a ≤ g a) : sumL l f ≤ sumL l g := by
  induction l with
  | nil => simp
  | cons a t ih =>
    have := ih (fun b hb => h b (List.mem_cons_of_mem a hb))
    have ha := h a (List.mem_cons_self a t)
    simpa using add_le_add ha this

theorem sumL_comm {α γ β : Type*} [AddCommMonoid β] (l₁ : List α) (l₂ : List γ)
    (f : α → γ → β) :
    sumL l₁ (fun a => sumL l₂ (f a)) = sumL l₂ (fun c => sumL l₁ (fun a => f a c)) := by
  induction l₁ with
  | nil => simp
  | cons a t ih =>
    simp only [sumL_cons, ih, ← sumL_add]

/-- Summing an indicator over a list counts occurrences. -/
theorem sumL_ite_eq_count {β : Type*} [AddCommMonoid β] (l : List ℤ) (x : ℤ) (v : β) :
    sumL l (fun d => if d = x then v else 0) = (l.count x) • v := by
  induction l with
  | nil => simp
  | cons a t ih =>
    by_cases h : a = x
    · subst h
      simp [List.count_cons, ih, succ_nsmul, add_comm]
    · simp [List.count_cons, h, ih, Ne.symm h]

theorem mem_arange {a b z : ℤ} : z ∈ arange a b ↔ a ≤ z ∧ z < b := by
  unfold arange
  rw [List.mem_map]
  constructor
  · rintro ⟨n, hn, rfl⟩
    rw [List.mem_range] at hn
    omega
  · rintro ⟨h₁, h₂⟩
    refine ⟨(z - a).toNat, ?_, ?_⟩
    · rw [List.mem_range]; omega
    · omega

theorem arange_nodup (a b : ℤ) : (arange a b).Nodup := by
  unfold arange
  apply List.Nodup.map
  · intro m n h
    dsimp only at h
    omega
  · exact List.nodup_range _

theorem count_arange (a b z : ℤ) :
    (arange a b).count z = if a ≤ z ∧ z < b then 1 else 0 := by
  by_cases h : z ∈ arange a b
  · rw [List.count_eq_one_of_mem (arange_nodup a b) h, if_pos (mem_arange.1 h)]
  · rw [List.count_eq_zero_of_not_mem h, if_neg (fun hc => h (mem_arange.2 hc))]

theorem pyint_mono {q q' : ℚ} (h : q ≤ q') : pyint q ≤ pyint q' := by
  unfold pyint
  rcases le_or_lt 0 q with hq | hq
  · rw [if_pos hq, if_pos (le_trans hq h)]
    exact Int.floor_le_floor h
  · rcases le_or_lt 0 q' with hq' | hq'
    · rw [if_neg (not_le.2 hq), if_pos hq']
      calc ⌈q⌉ ≤ 0 := Int.ceil_le.2 (by exact_mod_cast hq.le)
        _ ≤ ⌊q'⌋ := Int.le_floor.2 (by exact_mod_cast hq')
    · rw [if_neg (not_le.2 hq), if_neg (not_le.2 hq')]
      exact Int.ceil_le_ceil h

/-- C8 (amended): the normalizer merges each adjacent pair with m/z gap
strictly below `min_diff` in descending index order, writing the arithmetic
mean of the (current) m/z values and the sum of the (current) intensities
over both slots, then deletes the left slot of every violating pair.  An
isolated violating pair hence becomes one peak at the mean m/z with the
summed intensity; but a run of three closely spaced peaks keeps only the
mean/sum merge of the run's *last two* peaks — the first peak of the run is
deleted and its intensity discarded (not the greedy left-to-right fold the
claim describes). -/
theorem remove_duplicate_ions_merge_semantics :
    (∀ m₁ m₂ i₁ i₂ d : ℚ, m₂ - m₁ < d →
      remove_duplicate_ions [[(m₁, i₁), (m₂, i₂)]] d = [[((m₁ + m₂) / 2, i₁ + i₂)]]) ∧
    (∀ a b c ia ib ic d : ℚ, b - a < d → c - b < d →
      remove_duplicate_ions [[(a, ia), (b, ib), (c, ic)]] d = [[((b + c) / 2, ib + ic)]]) := by
  constructor
  · intro m₁ m₂ i₁ i₂ d h
    have hb : isBad [(m₁, i₁), (m₂, i₂)] d = true := by
      simp [isBad, diffsPrepend0]
      right
      linarith
    have hv : violIdx [(m₁, i₁), (m₂, i₂)] d = [0] := by
      show List.filter _ (List.range 1) = [0]
      rw [show List.range 1 = [0] from rfl]
      simp [h]
    simp [remove_duplicate_ions, hb, dedupSpectrum, hv, mergeAt, setPair, deleteIdxs,
      List.enum, List.enumFrom]
  · intro a b c ia ib ic d h₁ h₂
    have hb : isBad [(a, ia), (b, ib), (c, ic)] d = true := by
      simp [isBad, diffsPrepend0]
      right
      left
      linarith
    have hv : violIdx [(a, ia), (b, ib), (c, ic)] d = [0, 1] := by
      show List.filter _ (List.range 2) = [0, 1]
      rw [show List.range 2 = [0, 1] from rfl]
      simp [h₁, h₂]
    simp [remove_duplicate_ions, hb, dedupSpectrum, hv, mergeAt, setPair, deleteIdxs,
      List.enum, List.enumFrom]

/-- C8 witness: the claim's own concrete scenario — peaks
`[100.0000, 100.0005]` with intensities `[4, 9]` at `min_diff = 0.002`
merge to the single peak `(100.00025, 13) = (400001/4000, 13)`. -/
theorem remove_duplicate_ions_merge_semantics_witness :
    remove_duplicate_ions [[(100, 4), (100 + 1/2000, 9)]] (2/1000)
      = [[(400001/4000, 13)]] := by
  have h := remove_duplicate_ions_merge_semantics.1 100 (100 + 1/2000) 4 9 (2/1000)
    (by norm_num)
  rw [h]
  norm_num

/-- C8 counterexample: on the run `[100, 100.0005, 100.001]` with
intensities `[4, 9, 2]` (both gaps below `min_diff = 0.002`) the code
returns the merge of the *last two* peaks, `(400003/4000, 11)`, not the
greedy left-to-right fold `(((100 + 100.0005)/2 + 100.001)/2, 15) =
(800005/8000, 15)` the claim describes. -/
theorem remove_duplicate_ions_greedy_cex :
    remove_duplicate_ions [[(100, 4), (100 + 1/2000, 9), (100 + 1/1000, 2)]] (2/1000)
      = [[(400003/4000, 11)]] ∧
    remove_duplicate_ions [[(100, 4), (100 + 1/2000, 9), (100 + 1/1000, 2)]] (2/1000)
      ≠ [[(800005/8000, 15)]] := by
  have h : remove_duplicate_ions [[(100, 4), (100 + 1/2000, 9), (100 + 1/1000, 2)]] (2/1000)
      = [[(400003/4000, 11)]] := by
    norm_num [remove_duplicate_ions, isBad, diffsPrepend0, dedupSpectrum, violIdx, mergeAt,
      setPair, deleteIdxs, List.enum, List.enumFrom,
      show List.range 2 = [0, 1] from rfl]
  refine ⟨h, ?_⟩
  rw [h]
  intro hc
  have := List.head_eq_of_cons_eq hc
  have h2 := List.head_eq_of_cons_eq this
  rw [Prod.ext_iff] at h2
  norm_num at h2

/-- Inversion for a successful discretization. -/
theorem discretizeCore_eq_some {mzis : List Spectrum} {pmzs : List ℚ} {w : ℚ} {p : ℝ}
    {S : SStore} :
    discretizeCore mzis pmzs w p = some S ↔
      withIds 0 mzis ≠ [] ∧
      (∀ ip ∈ withIds 0 mzis, ip.1 < pmzs.length) ∧
      (∀ e ∈ reEntries mzis p w (discShift mzis pmzs w) ++
              imEntries mzis pmzs w (discShift mzis pmzs w), 0 ≤ e.col) ∧
      S = { ic := reEntries mzis p w (discShift mzis pmzs w) ++
                  imEntries mzis pmzs w (discShift mzis pmzs w),
            pmz := pmzs, shift := discShift mzis pmzs w, bin_width := w,
            intensity_power := p } := by
  unfold discretizeCore
  dsimp only
  split
  · rename_i hemp
    simp [hemp]
  · rename_i hemp
    split
    · rename_i hbound
      simp only [List.all_eq_true, decide_eq_true_eq] at hbound
      simp only [reduceCtorEq, false_iff, not_and]
      intro _ hb
      exact absurd hb hbound
    · rename_i hbound
      simp only [not_not, List.all_eq_true, decide_eq_true_eq] at hbound
      split
      · rename_i hcol
        simp only [List.all_eq_true, decide_eq_true_eq] at hcol
        constructor
        · intro h
          refine ⟨hemp, hbound, hcol, ?_⟩
          exact (Option.some_inj.1 h).symm
        · rintro ⟨-, -, -, rfl⟩
          rfl
      · rename_i hcol
        simp only [List.all_eq_true, decide_eq_true_eq, not_forall] at hcol
        simp only [reduceCtorEq, false_iff, not_and]
        intro _ _ hc
        obtain ⟨e, he, hne⟩ := hcol
        exact absurd (hc e he) hne

theorem rint_intCast (n : ℤ) : rint ((n : ℚ)) = n := by
  simp [rint]

theorem rint_eq_of_cast {q : ℚ} {n : ℤ} (h : q = (n : ℚ)) : rint q = n := by
  rw [h, rint_intCast]

theorem mzBin_ex1 : mzBin (1/1000) ((100 : ℚ), (1 : ℚ)) = 100000 :=
  rint_eq_of_cast (by norm_num)

theorem nlBin_ex1 : nlBin (1/1000) 300 ((100 : ℚ), (1 : ℚ)) = 200000 := by
  rw [nlBin, mzBin_ex1, rint_eq_of_cast (n := 300000) (by norm_num)]
  norm_num

theorem discShift_ex1 : discShift [[((100 : ℚ), (1 : ℚ))]] [300] (1/1000) = -200000 := by
  have h : nlBins [[((100 : ℚ), (1 : ℚ))]] [300] (1/1000) = [200000] := by
    show [nlBin (1/1000) ([(300 : ℚ)].getD 0 0) ((100 : ℚ), (1 : ℚ))] = [200000]
    rw [show [(300 : ℚ)].getD 0 0 = (300 : ℚ) from rfl, nlBin_ex1]
  rw [discShift, h]
  rfl

theorem discretize_exStore1 :
    discretize_spectra [[((100 : ℚ), (1 : ℚ))]] [150] (1/1000) ((1:ℝ)/2) false
      = some exStore1 := by
  rw [discretize_spectra]
  simp only [Bool.false_eq_true, if_false]
  rw [discretizeCore_eq_some]
  have hmz : mzBin (1/1000) ((100 : ℚ), (1 : ℚ)) = 100000 := mzBin_ex1
  have hnlb : nlBin (1/1000) 150 ((100 : ℚ), (1 : ℚ)) = 50000 := by
    rw [nlBin, mzBin_ex1, rint_eq_of_cast (n := 150000) (by norm_num)]
    norm_num
  have hsh : discShift [[((100 : ℚ), (1 : ℚ))]] [150] (1/1000) = -50000 := by
    have h : nlBins [[((100 : ℚ), (1 : ℚ))]] [150] (1/1000) = [50000] := by
      show [nlBin (1/1000) ([(150 : ℚ)].getD 0 0) ((100 : ℚ), (1 : ℚ))] = [50000]
      rw [show [(150 : ℚ)].getD 0 0 = (150 : ℚ) from rfl, hnlb]
    rw [discShift, h]
    rfl
  have hre : reEntries [[((100 : ℚ), (1 : ℚ))]] ((1:ℝ)/2) (1/1000) (-50000)
      = [⟨0, 50000, 1, 0⟩] := by
    unfold reEntries
    simp only [withIds, List.map_cons, List.map_nil, List.map_append, List.nil_append,
      List.append_nil, hmz]
    norm_num [inorms, norm2, Real.one_rpow]
  have him : imEntries [[((100 : ℚ), (1 : ℚ))]] [150] (1/1000) (-50000)
      = [⟨0, 0, 0, 1⟩] := by
    unfold imEntries
    simp only [withIds, List.map_cons, List.map_nil, List.map_append, List.nil_append,
      List.append_nil]
    rw [show [(150 : ℚ)].getD 0 0 = (150 : ℚ) from rfl, hnlb]
    norm_num [cnorms, norm2, Real.one_rpow]
  refine ⟨by simp [withIds], ?_, ?_, ?_⟩
  · intro ip hip
    simp [withIds] at hip
    subst hip
    simp
  · rw [hsh, hre, him]
    intro e he
    simp at he
    rcases he with he | he <;> simp [he]
  · rw [hsh, hre, him]
    rfl

/-- C1 (amended): discretization does compute `shift = -min(nl over all
peaks)` (over the possibly deduplicated peaks), and whenever it returns a
store every stored column is a nonnegative integer; but the shift itself
need not be nonnegative, and when an m/z column would come out negative
the sparse-matrix construction fails instead (see the counterexample). -/
theorem discretize_shift_eq_neg_min_nl (mzis0 : List Spectrum) (pmzs : List ℚ) (w : ℚ)
    (p : ℝ) (rd : Bool) (S : SStore)
    (h : discretize_spectra mzis0 pmzs w p rd = some S) :
    (nlBins (if rd then remove_duplicate_ions mzis0 (2 * w) else mzis0) pmzs w).min?
        = some (-S.shift) ∧
    ∀ e ∈ S.ic, 0 ≤ e.col := by
  rw [discretize_spectra] at h
  obtain ⟨hne, hbound, hcol, rfl⟩ := discretizeCore_eq_some.1 h
  refine ⟨?_, hcol⟩
  have hnl : nlBins (if rd then remove_duplicate_ions mzis0 (2 * w) else mzis0) pmzs w
      ≠ [] := by
    intro hc
    exact hne (List.map_eq_nil_iff.1 hc)
  cases hmin : (nlBins (if rd then remove_duplicate_ions mzis0 (2 * w) else mzis0)
      pmzs w).min? with
  | none => exact absurd (List.min?_eq_none_iff.1 hmin) hnl
  | some m =>
    simp only [discShift, hmin, Option.getD_some, neg_neg]

/-- C1 witness: the single peak `(100, 1)` with precursor 150 discretizes
successfully; its NL-bin minimum is `50000 = -shift` and both stored
columns are nonnegative. -/
theorem discretize_shift_eq_neg_min_nl_witness :
    (nlBins [[((100 : ℚ), (1 : ℚ))]] [150] (1/1000)).min? = some (-exStore1.shift) ∧
    ∀ e ∈ exStore1.ic, 0 ≤ e.col := by
  have := discretize_shift_eq_neg_min_nl [[((100 : ℚ), (1 : ℚ))]] [150] (1/1000)
    ((1:ℝ)/2) false exStore1 discretize_exStore1
  simpa using this

/-- C1 counterexample: for the single peak `(100, 1)` with precursor 300
the code's shift is `-min(nl) = -200000`, a *negative* integer, and the
m/z storage column `100000 + shift = -100000` is negative, so
discretization raises (`coo_matrix` rejects negative indices) instead of
producing the nonnegative-column store the claim asserts. -/
theorem discretize_shift_negative_cex :
    discShift [[((100 : ℚ), (1 : ℚ))]] [300] (1/1000) = -200000 ∧
    ¬ (0 ≤ (-200000 : ℤ)) ∧
    discretize_spectra [[((100 : ℚ), (1 : ℚ))]] [300] (1/1000) ((1:ℝ)/2) false = none := by
  refine ⟨discShift_ex1, by norm_num, ?_⟩
  rw [discretize_spectra]
  simp only [Bool.false_eq_true, if_false]
  cases h : discretizeCore [[((100 : ℚ), (1 : ℚ))]] [300] (1/1000) ((1:ℝ)/2) with
  | none => rfl
  | some S =>
    exfalso
    obtain ⟨-, -, hcol, -⟩ := discretizeCore_eq_some.1 h
    have hmem : (⟨0, mzBin (1/1000) ((100 : ℚ), (1 : ℚ)) +
        discShift [[((100 : ℚ), (1 : ℚ))]] [300] (1/1000),
        (inorms [[((100 : ℚ), (1 : ℚ))]] ((1:ℝ)/2)).getD 0 0 * (((1 : ℚ) : ℝ)) ^ ((1:ℝ)/2),
        0⟩ : SEntry) ∈
        reEntries [[((100 : ℚ), (1 : ℚ))]] ((1:ℝ)/2) (1/1000)
          (discShift [[((100 : ℚ), (1 : ℚ))]] [300] (1/1000)) := by
      unfold reEntries
      simp [withIds]
    have := hcol _ (List.mem_append_left _ hmem)
    rw [mzBin_ex1, discShift_ex1] at this
    norm_num at this

theorem arange_eq_nil {a b : ℤ} (h : b ≤ a) : arange a b = [] := by
  unfold arange
  rw [show (b - a).toNat = 0 by omega]
  rfl

/-- C7 (amended): a tolerance strictly below one bin width makes
`bin_num ≤ 0`, so the tolerance smear `np.arange(-bin_num//2+1,
bin_num//2+1)` is empty, the expanded arrays are empty, and
`network_kernel` fails on `.min()` of an empty array — it does not
produce well-defined derived arrays. -/
theorem network_kernel_small_tolerance_fails (S : SStore) (tolerance : ℚ)
    (mass_diffs : List ℚ) (react_steps : ℕ)
    (hw : 0 < S.bin_width) (ht : tolerance < S.bin_width) :
    network_kernel S tolerance mass_diffs react_steps = none := by
  unfold network_kernel
  cases hoff : netOffsets S.bin_width tolerance mass_diffs react_steps with
  | none => rfl
  | some mds =>
    have hb : pyint (2 * (tolerance / S.bin_width) - 1) ≤ 0 := by
      have h1 : 2 * (tolerance / S.bin_width) - 1 < 1 := by
        have : tolerance / S.bin_width < 1 := (div_lt_one hw).2 ht
        linarith
      unfold pyint
      split
      · have := Int.floor_lt.2 (show 2 * (tolerance / S.bin_width) - 1 < ((1 : ℤ) : ℚ) by
          exact_mod_cast h1)
        omega
      · rename_i hq
        exact Int.ceil_le.2 (by exact_mod_cast (not_le.1 hq).le)
    have hmds : mds = [] := by
      obtain ⟨sd, -, rfl⟩ := Option.map_eq_some'.1 hoff
      have har : arange ((-(pyint (2 * (tolerance / S.bin_width) - 1))).fdiv 2 + 1)
          ((pyint (2 * (tolerance / S.bin_width) - 1)).fdiv 2 + 1) = [] := by
        apply arange_eq_nil
        have h1 : (pyint (2 * (tolerance / S.bin_width) - 1)).fdiv 2 ≤ 0 := by
          rw [Int.fdiv_eq_ediv _ (by norm_num)]
          omega
        have h2 : 0 ≤ (-(pyint (2 * (tolerance / S.bin_width) - 1))).fdiv 2 := by
          rw [Int.fdiv_eq_ediv _ (by norm_num)]
          omega
        omega
      dsimp only
      rw [har]
      simp
    subst hmds
    dsimp only
    rw [show rawNet S.ic [] = [] by simp [rawNet]]
    rfl

theorem network_kernel_small_tolerance_fails_witness :
    network_kernel exStoreK (1/2000) [0] 1 = none :=
  network_kernel_small_tolerance_fails exStoreK (1/2000) [0] 1 (by norm_num [exStoreK])
    (by norm_num [exStoreK])

theorem network_kernel_small_tolerance_cex :
    network_kernel exStoreCx (1/2000) [0] 1 = none := by
  unfold network_kernel netOffsets symDiffs
  norm_num [dedupSort, react, pyint, arange, exStoreCx, rawNet]

/-- C4 (amended): `score_sparse_spectra` decides
`ordered = nnz(S1) < nnz(S2)` (query first) and applies the network
kernel — i.e. hands the `_net` suffix — to `S1` when `ordered` holds and
to `S2` otherwise, which is always the side with *no more* nonzeros than
the other, not the larger side. -/
theorem expanded_side_has_no_more_nonzeros (S1 S2 : SStore) :
    (if scoreOrdered S1 S2 then S1 else S2).ic.length ≤
    (if scoreOrdered S1 S2 then S2 else S1).ic.length := by
  unfold scoreOrdered
  split
  · rename_i h
    simp only [scoreOrdered, decide_eq_true_eq] at h
    exact h.le
  · rename_i h
    simp only [scoreOrdered, decide_eq_true_eq] at h
    omega

theorem expanded_side_cex :
    scoreOrdered exQ exR = true ∧
    ¬ (exR.ic.length < exQ.ic.length) ∧
    (if scoreOrdered exQ exR then exQ else exR).ic.length <
      (if scoreOrdered exQ exR then exR else exQ).ic.length := by
  refine ⟨?_, by simp [exQ, exR], ?_⟩ <;> simp [scoreOrdered, exQ, exR]

theorem norm2_replicate_one (m : ℕ) : norm2 (List.replicate m (1:ℝ)) = Real.sqrt m := by
  unfold norm2
  congr 1
  induction m with
  | zero => simp
  | succ n ih =>
    simp [List.replicate_succ, ih]
    ring

theorem cnorm_eq_one {m : ℕ} (hm : 0 < m) :
    ((m : ℝ)) ^ ((1:ℝ)/2) / norm2 (List.replicate m (1:ℝ)) = 1 := by
  rw [norm2_replicate_one, ← Real.sqrt_eq_rpow]
  exact div_self (by positivity)

/-- A successful split forces the two masks to select equally many
entries. -/
theorem expand_inversion (l : List SEntry) (E : Expanded)
    (h : expand_sparse_spectra l = some E) :
    (posRe l).length = (posIm l).length := by
  unfold expand_sparse_spectra at h
  dsimp only at h
  split at h
  · rename_i hg
    exact hg.1
  · exact absurd h (by simp)

theorem posRe_exStoreZ : posRe exStoreZ.ic = [⟨0, 150000, 1, 0⟩] := by
  unfold posRe exStoreZ
  norm_num [List.filter]

theorem posIm_exStoreZ : posIm exStoreZ.ic = [⟨0, 100000, 0, 1⟩, ⟨0, 0, 0, 1⟩] := by
  unfold posIm exStoreZ
  norm_num [List.filter]

theorem discretize_exStoreZ :
    discretize_spectra [[((100 : ℚ), (1 : ℚ)), ((200 : ℚ), (0 : ℚ))]] [150] (1/1000)
      ((1:ℝ)/2) false = some exStoreZ := by
  rw [discretize_spectra]
  simp only [Bool.false_eq_true, if_false]
  rw [discretizeCore_eq_some]
  have hmz1 : mzBin (1/1000) ((100 : ℚ), (1 : ℚ)) = 100000 := mzBin_ex1
  have hmz2 : mzBin (1/1000) ((200 : ℚ), (0 : ℚ)) = 200000 :=
    rint_eq_of_cast (by norm_num)
  have hnl1 : nlBin (1/1000) 150 ((100 : ℚ), (1 : ℚ)) = 50000 := by
    rw [nlBin, hmz1, rint_eq_of_cast (n := 150000) (by norm_num)]
    norm_num
  have hnl2 : nlBin (1/1000) 150 ((200 : ℚ), (0 : ℚ)) = -50000 := by
    rw [nlBin, hmz2, rint_eq_of_cast (n := 150000) (by norm_num)]
    norm_num
  have hsh : discShift [[((100 : ℚ), (1 : ℚ)), ((200 : ℚ), (0 : ℚ))]] [150] (1/1000)
      = 50000 := by
    have h : nlBins [[((100 : ℚ), (1 : ℚ)), ((200 : ℚ), (0 : ℚ))]] [150] (1/1000)
        = [50000, -50000] := by
      show [nlBin (1/1000) ([(150:ℚ)].getD 0 0) ((100 : ℚ), (1 : ℚ)),
            nlBin (1/1000) ([(150:ℚ)].getD 0 0) ((200 : ℚ), (0 : ℚ))] = [50000, -50000]
      rw [show [(150 : ℚ)].getD 0 0 = (150 : ℚ) from rfl, hnl1, hnl2]
    rw [discShift, h]
    rfl
  have hin : inorms [[((100 : ℚ), (1 : ℚ)), ((200 : ℚ), (0 : ℚ))]] ((1:ℝ)/2) = [1] := by
    unfold inorms norm2
    norm_num [Real.one_rpow, Real.zero_rpow]
  have hcn : cnorms [[((100 : ℚ), (1 : ℚ)), ((200 : ℚ), (0 : ℚ))]] = [1] := by
    unfold cnorms
    simp only [List.map_cons, List.map_nil, List.length_cons, List.length_nil]
    rw [show ((0:ℕ)+1+1 : ℕ) = 2 from rfl]
    rw [cnorm_eq_one (by norm_num)]
  have hre : reEntries [[((100 : ℚ), (1 : ℚ)), ((200 : ℚ), (0 : ℚ))]] ((1:ℝ)/2) (1/1000)
      50000 = [⟨0, 150000, 1, 0⟩, ⟨0, 250000, 0, 0⟩] := by
    unfold reEntries
    simp only [withIds, List.map_cons, List.map_nil, List.map_append, List.nil_append,
      List.append_nil, hmz1, hmz2, hin]
    norm_num [Real.one_rpow, Real.zero_rpow]
  have him : imEntries [[((100 : ℚ), (1 : ℚ)), ((200 : ℚ), (0 : ℚ))]] [150] (1/1000)
      50000 = [⟨0, 100000, 0, 1⟩, ⟨0, 0, 0, 1⟩] := by
    unfold imEntries
    simp only [withIds, List.map_cons, List.map_nil, List.map_append, List.nil_append,
      List.append_nil, hcn]
    rw [show [(150 : ℚ)].getD 0 0 = (150 : ℚ) from rfl, hnl1, hnl2]
    norm_num
  rw [hsh, hre, him]
  refine ⟨by simp [withIds], ?_, ?_, ?_⟩
  · intro ip hip
    simp [withIds] at hip
    rcases hip with hip | hip <;> (subst hip; simp)
  · intro e he
    simp at he
    rcases he with he | he | he | he <;> simp [he]
  · rfl

/-- C10: the split step of scoring pairs the `imag > 0` values positionally
with the `real > 0` coordinates, so it is defined only when the two masks
select equally many entries; discretizing a spectrum with a zero-intensity
peak violates that balance (its m/z entry has real part 0), the split step
fails, and self-scoring the store fails with it. -/
theorem expand_requires_balanced_masks :
    (∀ (l : List SEntry) (E : Expanded), expand_sparse_spectra l = some E →
      (posRe l).length = (posIm l).length) ∧
    discretize_spectra [[((100 : ℚ), (1 : ℚ)), ((200 : ℚ), (0 : ℚ))]] [150] (1/1000)
      ((1:ℝ)/2) false = some exStoreZ ∧
    (posRe exStoreZ.ic).length = 1 ∧
    (posIm exStoreZ.ic).length = 2 ∧
    expand_sparse_spectra exStoreZ.ic = none ∧
    score_sparse_spectra exStoreZ exStoreZ (1/100) [0] 1 = none := by
  have hexp : expand_sparse_spectra exStoreZ.ic = none := by
    unfold expand_sparse_spectra
    dsimp only
    rw [if_neg]
    rintro ⟨h1, -⟩
    rw [posRe_exStoreZ, posIm_exStoreZ] at h1
    simp at h1
  refine ⟨expand_inversion, discretize_exStoreZ, by rw [posRe_exStoreZ]; rfl,
    by rw [posIm_exStoreZ]; rfl, hexp, ?_⟩
  unfold score_sparse_spectra
  have hord : scoreOrdered exStoreZ exStoreZ = false := by
    simp [scoreOrdered]
  rw [hord]
  simp only [Bool.false_eq_true, if_false, hexp]
  cases network_kernel exStoreZ (1/100) [0] 1 <;> simp

/-- For a one-peak spectrum the NL minimum is the peak's own NL bin, so
`shift = k - p_bin` and the m/z storage column is `2*k - p_bin`; when the
precursor bin exceeds twice the fragment bin that column is negative and
discretization fails. -/
theorem discretize_single_peak_neg (mzv iv pmz w : ℚ) (p : ℝ)
    (h : 2 * mzBin w (mzv, iv) < rint (pmz / w)) :
    discretize_spectra [[(mzv, iv)]] [pmz] w p false = none := by
  rw [discretize_spectra]
  simp only [Bool.false_eq_true, if_false]
  cases hc : discretizeCore [[(mzv, iv)]] [pmz] w p with
  | none => rfl
  | some S =>
    exfalso
    obtain ⟨-, -, hcol, -⟩ := discretizeCore_eq_some.1 hc
    have hsh : discShift [[(mzv, iv)]] [pmz] w = mzBin w (mzv, iv) - rint (pmz / w) := by
      have hlist : nlBins [[(mzv, iv)]] [pmz] w = [nlBin w pmz (mzv, iv)] := rfl
      rw [discShift, hlist]
      show -(nlBin w pmz (mzv, iv)) = _
      rw [nlBin]
      ring
    have hmem : (⟨0, mzBin w (mzv, iv) + discShift [[(mzv, iv)]] [pmz] w,
        (inorms [[(mzv, iv)]] p).getD 0 0 * ((iv : ℝ)) ^ p, 0⟩ : SEntry) ∈
        reEntries [[(mzv, iv)]] p w (discShift [[(mzv, iv)]] [pmz] w) := by
      unfold reEntries
      simp [withIds]
    have h2 := hcol _ (List.mem_append_left _ hmem)
    rw [hsh] at h2
    dsimp at h2
    omega

/-- C6 (amended): the scenario's single-peak spectra A = [100.000] and
B = [100.018] with precursor 300 cannot be discretized at all — their m/z
storage columns `2*k - p_bin` are negative (−100000 and −99964), so
`coo_matrix` raises and no scores are produced, at either tolerance. -/
theorem scenario3_discretize_fails :
    discretize_spectra [[((100 : ℚ), (1 : ℚ))]] [300] (1/1000) ((1:ℝ)/2) false = none ∧
    discretize_spectra [[((100018/1000 : ℚ), (1 : ℚ))]] [300] (1/1000) ((1:ℝ)/2) false
      = none := by
  constructor
  · apply discretize_single_peak_neg
    rw [mzBin_ex1, rint_eq_of_cast (n := 300000) (by norm_num)]
    norm_num
  · apply discretize_single_peak_neg
    rw [show mzBin (1/1000) ((100018/1000 : ℚ), (1 : ℚ)) = 100018 from
        rint_eq_of_cast (by norm_num),
      rint_eq_of_cast (n := 300000) (by norm_num)]
    norm_num

/-- C6 counterexample: running the claim's pipeline — discretize A and B,
then score — produces no result at tolerance 0.01 (so `mzi ≈ 1, mzc = 1`
is never attained) and none at tolerance 0.005 either: discretization
already fails on both inputs. -/
theorem scenario3_cex :
    ((discretize_spectra [[((100 : ℚ), (1 : ℚ))]] [300] (1/1000) ((1:ℝ)/2) false).bind
      fun SA =>
        (discretize_spectra [[((100018/1000 : ℚ), (1 : ℚ))]] [300] (1/1000) ((1:ℝ)/2)
          false).bind fun SB => score_sparse_spectra SA SB (1/100) [0] 1) = none ∧
    ((discretize_spectra [[((100 : ℚ), (1 : ℚ))]] [300] (1/1000) ((1:ℝ)/2) false).bind
      fun SA =>
        (discretize_spectra [[((100018/1000 : ℚ), (1 : ℚ))]] [300] (1/1000) ((1:ℝ)/2)
          false).bind fun SB => score_sparse_spectra SA SB (1/200) [0] 1) = none := by
  have hA : discretize_spectra [[((100 : ℚ), (1 : ℚ))]] [300] (1/1000) ((1:ℝ)/2) false
      = none := by
    apply discretize_single_peak_neg
    rw [mzBin_ex1, rint_eq_of_cast (n := 300000) (by norm_num)]
    norm_num
  rw [hA]
  exact ⟨rfl, rfl⟩

/-- C10 witness: on a balanced two-entry list the split succeeds and the
two masks indeed select equally many entries. -/
theorem expand_requires_balanced_masks_witness :
    (posRe [⟨0, 0, (1:ℝ), 0⟩, ⟨0, 1, 0, 1⟩]).length
      = (posIm [⟨0, 0, (1:ℝ), 0⟩, ⟨0, 1, 0, 1⟩]).length := by
  refine expand_requires_balanced_masks.1 _
    { mzi := [⟨0, 0, 1⟩], nli := [⟨1, 0, 1⟩], mzc := [⟨0, 0, 1⟩], nlc := [⟨1, 0, 1⟩] } ?_
  unfold expand_sparse_spectra posRe posIm
  norm_num [List.filter, List.zip, List.zipWith, truncR]

theorem scoreKey_eq {α : Type} [NonUnitalNonAssocSemiring α] (m1 m2 : List (CooE α))
    (sh1 sh2 q r : ℤ) :
    scoreKey m1 m2 sh1 sh2 q r =
      sumL m1 fun a => sumL m2 fun b =>
        if a.c = q ∧ b.c = r ∧ a.r - sh1 = b.r - sh2 then a.v * b.v else 0 := by
  unfold scoreKey alignPair cooDot transposeC padCols padRows
  dsimp only
  rcases lt_trichotomy sh1 sh2 with h | h | h
  · rw [if_pos h, if_neg (by omega)]
    simp only [sumL_map]
    refine sumL_congr fun a _ => ?_
    refine sumL_congr fun b _ => ?_
    dsimp only
    congr 1
    simp only [eq_iff_iff]
    constructor <;> (rintro ⟨h1, h2, h3⟩; exact ⟨h1, h2, by omega⟩)
  · rw [if_neg (by omega), if_neg (by omega)]
    simp only [sumL_map]
    refine sumL_congr fun a _ => ?_
    refine sumL_congr fun b _ => ?_
    dsimp only
    congr 1
    simp only [eq_iff_iff]
    constructor <;> (rintro ⟨h1, h2, h3⟩; exact ⟨h1, h2, by omega⟩)
  · rw [if_neg (by omega), if_pos h]
    simp only [sumL_map]
    refine sumL_congr fun a _ => ?_
    refine sumL_congr fun b _ => ?_
    dsimp only
    congr 1
    simp only [eq_iff_iff]
    constructor <;> (rintro ⟨h1, h2, h3⟩; exact ⟨h1, h2, by omega⟩)

theorem scoreKey_swap {α : Type} [CommSemiring α] (m1 m2 : List (CooE α))
    (sh1 sh2 q r : ℤ) :
    scoreKey m1 m2 sh1 sh2 q r = scoreKey m2 m1 sh2 sh1 r q := by
  rw [scoreKey_eq, scoreKey_eq, sumL_comm]
  refine sumL_congr fun b _ => ?_
  refine sumL_congr fun a _ => ?_
  by_cases h : a.c = q ∧ b.c = r ∧ a.r - sh1 = b.r - sh2
  · rw [if_pos h, if_pos ⟨h.2.1, h.1, h.2.2.symm⟩, mul_comm]
  · rw [if_neg h, if_neg (by tauto)]

theorem scoreKey_net {α : Type} [CommSemiring α] (m1 L : List (CooE α)) (mds : List ℤ)
    (mn sh1 sh2 q r : ℤ) :
    scoreKey m1 (L.flatMap fun t => mds.map fun d => ⟨t.r + d - mn, t.c, t.v⟩)
        sh1 (sh2 - mn) q r =
      sumL m1 fun a => sumL L fun b =>
        if a.c = q ∧ b.c = r then
          (mds.count ((a.r - sh1) - (b.r - sh2))) • (a.v * b.v) else 0 := by
  rw [scoreKey_eq]
  refine sumL_congr fun a _ => ?_
  rw [sumL_flatMap]
  refine sumL_congr fun b _ => ?_
  rw [sumL_map]
  by_cases h : a.c = q ∧ b.c = r
  · rw [if_pos h]
    rw [show (sumL mds fun d =>
        if a.c = q ∧ (⟨b.r + d - mn, b.c, b.v⟩ : CooE α).c = r ∧
            a.r - sh1 = (⟨b.r + d - mn, b.c, b.v⟩ : CooE α).r - (sh2 - mn)
        then a.v * (⟨b.r + d - mn, b.c, b.v⟩ : CooE α).v else 0) =
        sumL mds fun d => if d = (a.r - sh1) - (b.r - sh2) then a.v * b.v else 0 from
      sumL_congr fun d _ => by
        dsimp only
        by_cases hd : d = (a.r - sh1) - (b.r - sh2)
        · rw [if_pos hd, if_pos ⟨h.1, h.2, by omega⟩]
        · rw [if_neg hd, if_neg (by rintro ⟨-, -, hh⟩; omega)]]
    rw [sumL_ite_eq_count]
  · rw [if_neg h]
    refine Eq.trans (sumL_congr fun d _ => ?_) (sumL_zero mds)
    rw [if_neg (by tauto)]

theorem expand_eq_some_iff {l : List SEntry} {E : Expanded} :
    expand_sparse_spectra l = some E ↔
      ((posRe l).length = (posIm l).length ∧
       (∀ e ∈ posRe l, 0 ≤ e.col) ∧ (∀ e ∈ posIm l, 0 ≤ e.col)) ∧
      E = { mzi := (posRe l).map fun e => ⟨e.col, (e.spec : ℤ), e.re⟩
          , nli := ((posRe l).zip (posIm l)).map fun ab =>
              ⟨ab.2.col, (ab.2.spec : ℤ), ab.1.re⟩
          , mzc := ((posRe l).zip (posIm l)).map fun ab =>
              ⟨ab.1.col, (ab.1.spec : ℤ), truncR ab.2.im⟩
          , nlc := (posIm l).map fun e => ⟨e.col, (e.spec : ℤ), truncR e.im⟩ } := by
  unfold expand_sparse_spectra
  dsimp only
  split
  · rename_i hg
    constructor
    · intro h
      exact ⟨hg, (Option.some_inj.1 h).symm⟩
    · rintro ⟨-, rfl⟩
      rfl
  · rename_i hg
    simp only [reduceCtorEq, false_iff, not_and]
    intro h
    exact absurd h hg

theorem network_kernel_eq_some {S : SStore} {T : ℚ} {D : List ℚ} {r : ℕ}
    {net : NetData} :
    network_kernel S T D r = some net ↔
      ∃ mds mn, netOffsets S.bin_width T D r = some mds ∧
        ((rawNet S.ic mds).map SEntry.col).min? = some mn ∧
        net = ⟨(rawNet S.ic mds).map fun e => { e with col := e.col - mn },
               S.shift - mn⟩ := by
  unfold network_kernel
  rcases ho : netOffsets S.bin_width T D r with _ | mds
  · simp
  · dsimp only
    rcases hm : ((rawNet S.ic mds).map SEntry.col).min? with _ | mn
    · dsimp only
      simp [hm]
    · dsimp only
      constructor
      · intro h
        exact ⟨mds, mn, rfl, hm, (Option.some_inj.1 h).symm⟩
      · rintro ⟨mds', mn', h1, h2, rfl⟩
        rw [Option.some_inj] at h1
        subst h1
        rw [hm, Option.some_inj] at h2
        subst h2
        rfl

theorem posRe_rawNet (l : List SEntry) (mds : List ℤ) (mn : ℤ) :
    posRe ((rawNet l mds).map fun e => { e with col := e.col - mn }) =
      (posRe l).flatMap fun e => mds.map fun d =>
        SEntry.mk e.spec (e.col + d - mn) e.re e.im := by
  unfold posRe rawNet
  induction l with
  | nil => rfl
  | cons a t ih =>
    simp only [List.flatMap_cons, List.map_append, List.filter_append, ih, List.map_map,
      List.filter_cons]
    by_cases h : 0 < a.re
    · rw [if_pos (by simpa using h)]
      simp only [List.flatMap_cons]
      congr 1
      rw [List.filter_map]
      rw [show (fun e => decide (0 < e.re)) ∘
          ((fun e => { e with col := e.col - mn : SEntry }) ∘
            fun d => SEntry.mk a.spec (a.col + d) a.re a.im) =
          fun _ => decide (0 < a.re) from rfl]
      rw [show (fun (_ : ℤ) => decide (0 < a.re)) = fun _ => true by
        funext d
        simp [h]]
      rw [List.filter_true]
      rfl
    · rw [if_neg (by simpa using h)]
      rw [List.filter_map]
      rw [show (fun e => decide (0 < e.re)) ∘
          ((fun e => { e with col := e.col - mn : SEntry }) ∘
            fun d => SEntry.mk a.spec (a.col + d) a.re a.im) =
          fun _ => decide (0 < a.re) from rfl]
      rw [show (fun (_ : ℤ) => decide (0 < a.re)) = fun _ => false by
        funext d
        simp [h]]
      rw [List.filter_false]
      rfl

theorem posIm_rawNet (l : List SEntry) (mds : List ℤ) (mn : ℤ) :
    posIm ((rawNet l mds).map fun e => { e with col := e.col - mn }) =
      (posIm l).flatMap fun e => mds.map fun d =>
        SEntry.mk e.spec (e.col + d - mn) e.re e.im := by
  unfold posIm rawNet
  induction l with
  | nil => rfl
  | cons a t ih =>
    simp only [List.flatMap_cons, List.map_append, List.filter_append, ih, List.map_map,
      List.filter_cons]
    by_cases h : 0 < a.im
    · rw [if_pos (by simpa using h)]
      simp only [List.flatMap_cons]
      congr 1
      rw [List.filter_map]
      rw [show (fun e => decide (0 < e.im)) ∘
          ((fun e => { e with col := e.col - mn : SEntry }) ∘
            fun d => SEntry.mk a.spec (a.col + d) a.re a.im) =
          fun _ => decide (0 < a.im) from rfl]
      rw [show (fun (_ : ℤ) => decide (0 < a.im)) = fun _ => true by
        funext d
        simp [h]]
      rw [List.filter_true]
      rfl
    · rw [if_neg (by simpa using h)]
      rw [List.filter_map]
      rw [show (fun e => decide (0 < e.im)) ∘
          ((fun e => { e with col := e.col - mn : SEntry }) ∘
            fun d => SEntry.mk a.spec (a.col + d) a.re a.im) =
          fun _ => decide (0 < a.im) from rfl]
      rw [show (fun (_ : ℤ) => decide (0 < a.im)) = fun _ => false by
        funext d
        simp [h]]
      rw [List.filter_false]
      rfl

theorem key_char {α : Type} [CommSemiring α] (L1 L2 : List (CooE α)) (Ω : List ℤ)
    (mn sh1 sh2 q r : ℤ) (flip : Bool) :
    scoreKey (if flip then netExp Ω mn L1 else L1)
             (if flip then L2 else netExp Ω mn L2)
             (if flip then sh1 - mn else sh1) (if flip then sh2 else sh2 - mn) q r
      = sumL L1 fun a => sumL L2 fun b =>
          if a.c = q ∧ b.c = r then
            (if flip then Ω.count ((b.r - sh2) - (a.r - sh1))
             else Ω.count ((a.r - sh1) - (b.r - sh2))) • (a.v * b.v) else 0 := by
  cases flip with
  | false =>
    simp only [Bool.false_eq_true, if_false]
    exact scoreKey_net L1 L2 Ω mn sh1 sh2 q r
  | true =>
    simp only [if_true]
    rw [scoreKey_swap]
    rw [show netExp Ω mn L1 =
        L1.flatMap (fun t => Ω.map fun d => (⟨t.r + d - mn, t.c, t.v⟩ : CooE α)) from rfl]
    rw [scoreKey_net L2 L1 Ω mn sh2 sh1 r q]
    rw [sumL_comm]
    refine sumL_congr fun a _ => ?_
    refine sumL_congr fun b _ => ?_
    by_cases h : a.c = q ∧ b.c = r
    · rw [if_pos ⟨h.2, h.1⟩, if_pos h, mul_comm a.v b.v]
    · rw [if_neg (by tauto), if_neg h]

theorem zip_flatMap_blocks {α β γ δ : Type} (Ω : List ℤ)
    (f : α → ℤ → γ) (g : β → ℤ → δ) :
    ∀ (A : List α) (B : List β), A.length = B.length →
    (A.flatMap fun a => Ω.map (f a)).zip (B.flatMap fun b => Ω.map (g b)) =
      (A.zip B).flatMap fun ab => Ω.map fun d => (f ab.1 d, g ab.2 d)
  | [], [], _ => rfl
  | [], _ :: _, h => by simp at h
  | _ :: _, [], h => by simp at h
  | a :: t, b :: s, h => by
    simp only [List.flatMap_cons, List.zip_cons_cons]
    rw [List.zip_append (by simp)]
    rw [List.zip_map']
    rw [zip_flatMap_blocks Ω f g t s (by simpa using h)]

theorem length_blocks {α γ : Type} (A : List α) (Ω : List ℤ) (f : α → ℤ → γ) :
    (A.flatMap fun a => Ω.map (f a)).length = A.length * Ω.length := by
  rw [List.length_flatMap]
  induction A with
  | nil => simp
  | cons a t ih =>
    simp only [List.map_cons, List.sum_cons, ih, Function.comp_apply, List.length_map,
      List.length_cons]
    ring

theorem net_mzi_shape (l : List SEntry) (Ω : List ℤ) (mn : ℤ) :
    (posRe ((rawNet l Ω).map fun e => { e with col := e.col - mn })).map
        (fun e => (⟨e.col, (e.spec : ℤ), e.re⟩ : CooE ℝ)) =
      netExp Ω mn ((posRe l).map fun e => (⟨e.col, (e.spec : ℤ), e.re⟩ : CooE ℝ)) := by
  rw [posRe_rawNet]
  unfold netExp
  rw [List.map_flatMap, List.flatMap_map]
  refine List.flatMap_congr fun e he => ?_
  rw [List.map_map]
  rfl

theorem net_nlc_shape (l : List SEntry) (Ω : List ℤ) (mn : ℤ) :
    (posIm ((rawNet l Ω).map fun e => { e with col := e.col - mn })).map
        (fun e => (⟨e.col, (e.spec : ℤ), truncR e.im⟩ : CooE ℤ)) =
      netExp Ω mn ((posIm l).map fun e => (⟨e.col, (e.spec : ℤ), truncR e.im⟩ : CooE ℤ)) := by
  rw [posIm_rawNet]
  unfold netExp
  rw [List.map_flatMap, List.flatMap_map]
  refine List.flatMap_congr fun e he => ?_
  rw [List.map_map]
  rfl

theorem net_nli_shape (l : List SEntry) (Ω : List ℤ) (mn : ℤ)
    (h : (posRe l).length = (posIm l).length) :
    (((posRe ((rawNet l Ω).map fun e => { e with col := e.col - mn })).zip
      (posIm ((rawNet l Ω).map fun e => { e with col := e.col - mn }))).map
        (fun ab => (⟨ab.2.col, (ab.2.spec : ℤ), ab.1.re⟩ : CooE ℝ))) =
      netExp Ω mn (((posRe l).zip (posIm l)).map
        fun ab => (⟨ab.2.col, (ab.2.spec : ℤ), ab.1.re⟩ : CooE ℝ)) := by
  rw [posRe_rawNet, posIm_rawNet]
  rw [zip_flatMap_blocks Ω _ _ (posRe l) (posIm l) h]
  unfold netExp
  rw [List.map_flatMap, List.flatMap_map]
  refine List.flatMap_congr fun ab hab => ?_
  rw [List.map_map]
  rfl

theorem net_mzc_shape (l : List SEntry) (Ω : List ℤ) (mn : ℤ)
    (h : (posRe l).length = (posIm l).length) :
    (((posRe ((rawNet l Ω).map fun e => { e with col := e.col - mn })).zip
      (posIm ((rawNet l Ω).map fun e => { e with col := e.col - mn }))).map
        (fun ab => (⟨ab.1.col, (ab.1.spec : ℤ), truncR ab.2.im⟩ : CooE ℤ))) =
      netExp Ω mn (((posRe l).zip (posIm l)).map
        fun ab => (⟨ab.1.col, (ab.1.spec : ℤ), truncR ab.2.im⟩ : CooE ℤ)) := by
  rw [posRe_rawNet, posIm_rawNet]
  rw [zip_flatMap_blocks Ω _ _ (posRe l) (posIm l) h]
  unfold netExp
  rw [List.map_flatMap, List.flatMap_map]
  refine List.flatMap_congr fun ab hab => ?_
  rw [List.map_map]
  rfl

theorem omega_ne_of_min {l : List SEntry} {Ω : List ℤ} {mn : ℤ}
    (h : ((rawNet l Ω).map SEntry.col).min? = some mn) : Ω ≠ [] := by
  intro hc
  subst hc
  rw [show rawNet l [] = [] by simp [rawNet]] at h
  simp at h

theorem base_len_eq_of_net {l : List SEntry} {Ω : List ℤ} {mn : ℤ}
    (hΩne : Ω ≠ [])
    (h : (posRe ((rawNet l Ω).map fun e => { e with col := e.col - mn })).length =
         (posIm ((rawNet l Ω).map fun e => { e with col := e.col - mn })).length) :
    (posRe l).length = (posIm l).length := by
  rw [posRe_rawNet, posIm_rawNet, length_blocks, length_blocks] at h
  exact Nat.eq_of_mul_eq_mul_right (List.length_pos.2 hΩne) h

/-- `scoreKey` against a kernel-expanded right operand. -/
theorem scoreKey_netExp {α : Type} [CommSemiring α] (m1 L : List (CooE α)) (Ω : List ℤ)
    (mn sh1 sh2 q r : ℤ) :
    scoreKey m1 (netExp Ω mn L) sh1 (sh2 - mn) q r =
      sumL m1 fun a => sumL L fun b =>
        if a.c = q ∧ b.c = r then
          (Ω.count ((a.r - sh1) - (b.r - sh2))) • (a.v * b.v) else 0 :=
  scoreKey_net m1 L Ω mn sh1 sh2 q r

/-- `scoreKey` against a kernel-expanded left operand. -/
theorem scoreKey_netExp_left {α : Type} [CommSemiring α] (L m2 : List (CooE α))
    (Ω : List ℤ) (mn sh1 sh2 q r : ℤ) :
    scoreKey (netExp Ω mn L) m2 (sh1 - mn) sh2 q r =
      sumL L fun a => sumL m2 fun b =>
        if a.c = q ∧ b.c = r then
          (Ω.count ((b.r - sh2) - (a.r - sh1))) • (a.v * b.v) else 0 := by
  have h := key_char L m2 Ω mn sh1 sh2 q r true
  simpa using h

/-- The central characterization: a successful score's four matrices are
exactly the kernel-weighted double sums over the two stores' entries,
with matching decided on unshifted axis values (the shift alignment and
the minimum subtraction cancel). -/
theorem score_char {S1 S2 : SStore} {T : ℚ} {D : List ℚ} {r : ℕ} {R : ScoreRes}
    {Ω : List ℤ}
    (hs : score_sparse_spectra S1 S2 T D r = some R)
    (hΩ : netOffsets (if scoreOrdered S1 S2 then S1 else S2).bin_width T D r = some Ω)
    (q r' : ℤ) :
    R.mzi q r' = mziFormula S1 S2 Ω (scoreOrdered S1 S2) q r' ∧
    R.nli q r' = nliFormula S1 S2 Ω (scoreOrdered S1 S2) q r' ∧
    R.mzc q r' = mzcFormula S1 S2 Ω (scoreOrdered S1 S2) q r' ∧
    R.nlc q r' = nlcFormula S1 S2 Ω (scoreOrdered S1 S2) q r' := by
  unfold score_sparse_spectra at hs
  cases hord : scoreOrdered S1 S2 with
  | false =>
    rw [hord] at hs hΩ
    simp only [Bool.false_eq_true, if_false] at hs hΩ
    rw [Option.bind_eq_some] at hs
    obtain ⟨net, hnet, hs⟩ := hs
    rw [Option.bind_eq_some] at hs
    obtain ⟨E1, hE1, hs⟩ := hs
    rw [Option.bind_eq_some] at hs
    obtain ⟨E2, hE2, hs⟩ := hs
    obtain ⟨mds, mn, hoff, hmin, hneteq⟩ := network_kernel_eq_some.1 hnet
    rw [hΩ, Option.some_inj] at hoff
    subst hoff
    subst hneteq
    obtain ⟨⟨hlen1, -, -⟩, hE1eq⟩ := expand_eq_some_iff.1 hE1
    obtain ⟨⟨hlen2, -, -⟩, hE2eq⟩ := expand_eq_some_iff.1 hE2
    have hΩne : Ω ≠ [] := omega_ne_of_min hmin
    have hlen2b : (posRe S2.ic).length = (posIm S2.ic).length :=
      base_len_eq_of_net hΩne hlen2
    dsimp only at hs
    rw [Option.some_inj] at hs
    subst hs
    subst hE1eq
    subst hE2eq
    dsimp only
    refine ⟨?_, ?_, ?_, ?_⟩
    · rw [net_mzi_shape, scoreKey_netExp]
      simp only [sumL_map]
      rfl
    · rw [net_nli_shape _ _ _ hlen2b, scoreKey_netExp]
      simp only [sumL_map]
      rfl
    · rw [net_mzc_shape _ _ _ hlen2b, scoreKey_netExp]
      simp only [sumL_map]
      rfl
    · rw [net_nlc_shape, scoreKey_netExp]
      simp only [sumL_map]
      rfl
  | true =>
    rw [hord] at hs hΩ
    simp only [if_true] at hs hΩ
    rw [Option.bind_eq_some] at hs
    obtain ⟨net, hnet, hs⟩ := hs
    rw [Option.bind_eq_some] at hs
    obtain ⟨E1, hE1, hs⟩ := hs
    rw [Option.bind_eq_some] at hs
    obtain ⟨E2, hE2, hs⟩ := hs
    obtain ⟨mds, mn, hoff, hmin, hneteq⟩ := network_kernel_eq_some.1 hnet
    rw [hΩ, Option.some_inj] at hoff
    subst hoff
    subst hneteq
    obtain ⟨⟨hlen1, -, -⟩, hE1eq⟩ := expand_eq_some_iff.1 hE1
    obtain ⟨⟨hlen2, -, -⟩, hE2eq⟩ := expand_eq_some_iff.1 hE2
    have hΩne : Ω ≠ [] := omega_ne_of_min hmin
    have hlen1b : (posRe S1.ic).length = (posIm S1.ic).length :=
      base_len_eq_of_net hΩne hlen1
    dsimp only at hs
    rw [Option.some_inj] at hs
    subst hs
    subst hE1eq
    subst hE2eq
    dsimp only
    refine ⟨?_, ?_, ?_, ?_⟩
    · rw [net_mzi_shape, scoreKey_netExp_left]
      simp only [sumL_map]
      rfl
    · rw [net_nli_shape _ _ _ hlen1b, scoreKey_netExp_left]
      simp only [sumL_map]
      rfl
    · rw [net_mzc_shape _ _ _ hlen1b, scoreKey_netExp_left]
      simp only [sumL_map]
      rfl
    · rw [net_nlc_shape, scoreKey_netExp_left]
      simp only [sumL_map]
      rfl

theorem eraseIdx_append_len {α : Type} (l1 l2 : List α) :
    (l1 ++ l2).eraseIdx l1.length = l1 ++ l2.eraseIdx 0 := by
  induction l1 with
  | nil => simp
  | cons a t ih => simp [List.eraseIdx_cons_succ, ih]

/-- Upper bound on the symmetrized set: every member is `±|d|` for some
input difference. -/
theorem mem_symDiffs_upper {D : List ℚ} {sd : List ℚ} (h : symDiffs D = some sd)
    {x : ℚ} (hx : x ∈ sd) : ∃ d ∈ D, x = |d| ∨ x = -|d| := by
  unfold symDiffs at h
  dsimp only at h
  set s := (D.map fun d => |d|).insertionSort (· ≤ ·) with hs
  set m := (s.reverse.map fun d => -d) ++ s with hm
  rcases hg : m[m.length / 2]? with _ | x0
  · rw [hg] at h
    exact absurd h (by simp)
  · rw [hg] at h
    rw [Option.some_inj] at h
    have hcase : sd = m.eraseIdx (m.length / 2) ∨ sd = m := by
      split at h
      · exact Or.inl h.symm
      · exact Or.inr h.symm
    have hxm : x ∈ m := by
      rcases hcase with h' | h'
      · exact List.mem_of_mem_eraseIdx (h' ▸ hx)
      · exact h' ▸ hx
    rw [hm] at hxm
    rcases List.mem_append.1 hxm with h' | h'
    · obtain ⟨y, hy, rfl⟩ := List.mem_map.1 h'
      have hy2 : y ∈ s := List.mem_reverse.1 hy
      rw [hs] at hy2
      obtain ⟨d, hd, rfl⟩ := List.mem_map.1 ((List.mem_insertionSort _).1 hy2)
      exact ⟨d, hd, Or.inr rfl⟩
    · rw [hs] at h'
      obtain ⟨d, hd, rfl⟩ := List.mem_map.1 ((List.mem_insertionSort _).1 h')
      exact ⟨d, hd, Or.inl rfl⟩

/-- Lower bound: both `|d|` and `-|d|` of every input difference stay in
the symmetrized list (dropping one middle 0 never empties the zeros). -/
theorem mem_symDiffs_lower {D : List ℚ} {sd : List ℚ} (h : symDiffs D = some sd)
    {d : ℚ} (hd : d ∈ D) : |d| ∈ sd ∧ -|d| ∈ sd := by
  unfold symDiffs at h
  dsimp only at h
  set s := (D.map fun d => |d|).insertionSort (· ≤ ·) with hs
  set m := (s.reverse.map fun d => -d) ++ s with hm
  have habs : |d| ∈ s := by
    rw [hs, List.mem_insertionSort]
    exact List.mem_map.2 ⟨d, hd, rfl⟩
  have hneg : -|d| ∈ s.reverse.map fun y => -y :=
    List.mem_map.2 ⟨|d|, List.mem_reverse.2 habs, rfl⟩
  have hlen : (s.reverse.map fun y => -y).length = s.length := by simp
  have hml : m.length = 2 * s.length := by
    rw [hm, List.length_append, hlen]
    ring
  have hmid : m.length / 2 = s.length := by omega
  have hm2 : m[s.length]? = s[0]? := by
    rw [hm, List.getElem?_append_right (le_of_eq hlen), hlen]
    simp
  rcases hg : m[m.length / 2]? with _ | x0
  · rw [hg] at h
    exact absurd h (by simp)
  · rw [hg] at h
    rw [Option.some_inj] at h
    rw [hmid, hm2] at hg
    by_cases h0 : x0 = 0
    · rw [if_pos h0] at h
      have herase : sd = (s.reverse.map fun y => -y) ++ s.eraseIdx 0 := by
        rw [← h, hmid, ← hlen, eraseIdx_append_len]
      rcases hsc : s with _ | ⟨a, t⟩
      · rw [hsc] at hg
        simp at hg
      · rw [hsc] at hg
        simp only [List.getElem?_cons_zero, Option.some_inj] at hg
        have ha0 : a = 0 := by rw [hg, h0]
        constructor
        · by_cases hdz : |d| = 0
          · rw [herase, hdz]
            refine List.mem_append_left _ ?_
            rw [show (0 : ℚ) = -|d| by rw [hdz]; ring]
            exact hneg
          · rw [herase]
            refine List.mem_append_right _ ?_
            rw [hsc, List.eraseIdx_cons_zero]
            have hms : |d| ∈ a :: t := hsc ▸ habs
            rcases List.mem_cons.1 hms with h' | h'
            · exact absurd (h'.trans ha0) hdz
            · exact h'
        · rw [herase]
          exact List.mem_append_left _ hneg
    · rw [if_neg h0] at h
      rw [← h, hm]
      exact ⟨List.mem_append_right _ habs, List.mem_append_left _ hneg⟩

theorem react_mem_mono {md md' : List ℤ} (h : ∀ x ∈ md, x ∈ md') :
    ∀ (r : ℕ) (x : ℤ), x ∈ react md r → x ∈ react md' r
  | 0, x, hx => h x hx
  | 1, x, hx => h x hx
  | (n + 2), x, hx => by
    unfold react at hx ⊢
    rw [List.mem_flatMap] at hx ⊢
    obtain ⟨a, ha, hx⟩ := hx
    rw [List.mem_map] at hx
    obtain ⟨b, hb, rfl⟩ := hx
    exact ⟨a, h a ha, List.mem_map.2 ⟨b, react_mem_mono h (n + 1) b hb, rfl⟩⟩

theorem mem_dedupSort {l : List ℤ} {x : ℤ} : x ∈ dedupSort l ↔ x ∈ l := by
  unfold dedupSort
  rw [List.mem_dedup, List.mem_insertionSort]

theorem nodup_dedupSort (l : List ℤ) : (dedupSort l).Nodup := List.nodup_dedup _

theorem count_map_add (ar : List ℤ) (a z : ℤ) :
    (ar.map fun t => a + t).count z = ar.count (z - a) := by
  induction ar with
  | nil => rfl
  | cons t ts ih =>
    simp only [List.map_cons, List.count_cons, ih]
    congr 1
    by_cases h : t = z - a
    · simp [h]
    · simp [h, show ¬ (a + t = z) by omega]

theorem count_blocks (L : List ℤ) (ar : List ℤ) (z : ℤ) :
    (L.flatMap fun d => ar.map fun t => d + t).count z =
      sumL L fun d => ar.count (z - d) := by
  induction L with
  | nil => rfl
  | cons d ds ih =>
    simp only [List.flatMap_cons, List.count_append, ih, sumL_cons, count_map_add]

theorem sumL_subset_nodup {l l' : List ℤ} {f : ℤ → ℕ} (hl : l.Nodup) (hl' : l'.Nodup)
    (hsub : ∀ x ∈ l, x ∈ l') : sumL l f ≤ sumL l' f := by
  have h1 : sumL l f = l.toFinset.sum f := (List.sum_toFinset f hl).symm
  have h2 : sumL l' f = l'.toFinset.sum f := (List.sum_toFinset f hl').symm
  rw [h1, h2]
  refine Finset.sum_le_sum_of_subset fun x hx => ?_
  rw [List.mem_toFinset] at hx ⊢
  exact hsub x hx

/-- The offset-count of the kernel grows pointwise when the tolerance
grows or the mass-difference list is enlarged. -/
theorem netOffsets_count_mono {w T T' : ℚ} {D D' : List ℚ} {r : ℕ} {Ω Ω' : List ℤ}
    (hw : 0 < w) (hT : T ≤ T') (hD : ∀ x ∈ D, x ∈ D')
    (h : netOffsets w T D r = some Ω) (h' : netOffsets w T' D' r = some Ω')
    (z : ℤ) : Ω.count z ≤ Ω'.count z := by
  obtain ⟨sd, hsd, rfl⟩ := Option.map_eq_some'.1 h
  obtain ⟨sd', hsd', rfl⟩ := Option.map_eq_some'.1 h'
  dsimp only
  rw [count_blocks, count_blocks]
  have hb : pyint (2 * (T / w) - 1) ≤ pyint (2 * (T' / w) - 1) := by
    apply pyint_mono
    have hdiv : T / w ≤ T' / w := (div_le_div_iff_of_pos_right hw).2 hT
    linarith
  set b := pyint (2 * (T / w) - 1) with hbd
  set b' := pyint (2 * (T' / w) - 1) with hbd'
  have hlo : (-b').fdiv 2 + 1 ≤ (-b).fdiv 2 + 1 := by
    rw [Int.fdiv_eq_ediv _ (by norm_num), Int.fdiv_eq_ediv _ (by norm_num)]
    have := Int.ediv_le_ediv (by norm_num : (0:ℤ) < 2) (by omega : -b' ≤ -b)
    omega
  have hhi : b.fdiv 2 + 1 ≤ b'.fdiv 2 + 1 := by
    rw [Int.fdiv_eq_ediv _ (by norm_num), Int.fdiv_eq_ediv _ (by norm_num)]
    have := Int.ediv_le_ediv (by norm_num : (0:ℤ) < 2) hb
    omega
  have har : ∀ y : ℤ, (arange ((-b).fdiv 2 + 1) (b.fdiv 2 + 1)).count y ≤
      (arange ((-b').fdiv 2 + 1) (b'.fdiv 2 + 1)).count y := by
    intro y
    rw [count_arange, count_arange]
    split
    · rename_i hy
      rw [if_pos ⟨le_trans hlo hy.1, lt_of_lt_of_le hy.2 hhi⟩]
    · exact Nat.zero_le _
  have hsub : ∀ x ∈ dedupSort (react (sd.map fun d => rint (d / w)) r),
      x ∈ dedupSort (react (sd'.map fun d => rint (d / w)) r) := by
    intro x hx
    rw [mem_dedupSort] at hx ⊢
    refine react_mem_mono ?_ r x hx
    intro y hy
    obtain ⟨c, hc, rfl⟩ := List.mem_map.1 hy
    obtain ⟨d0, hd0, hc2⟩ := mem_symDiffs_upper hsd hc
    have hd0' : d0 ∈ D' := hD d0 hd0
    obtain ⟨h1, h2⟩ := mem_symDiffs_lower hsd' hd0'
    rcases hc2 with rfl | rfl
    · exact List.mem_map.2 ⟨|d0|, h1, rfl⟩
    · exact List.mem_map.2 ⟨-|d0|, h2, rfl⟩
  calc sumL (dedupSort (react (sd.map fun d => rint (d / w)) r))
        (fun d => (arange ((-b).fdiv 2 + 1) (b.fdiv 2 + 1)).count (z - d))
      ≤ sumL (dedupSort (react (sd.map fun d => rint (d / w)) r))
        (fun d => (arange ((-b').fdiv 2 + 1) (b'.fdiv 2 + 1)).count (z - d)) :=
        sumL_le_sumL fun d _ => har (z - d)
    _ ≤ sumL (dedupSort (react (sd'.map fun d => rint (d / w)) r))
        (fun d => (arange ((-b').fdiv 2 + 1) (b'.fdiv 2 + 1)).count (z - d)) :=
        sumL_subset_nodup (nodup_dedupSort _) (nodup_dedupSort _) hsub

theorem score_some_netOffsets {S1 S2 : SStore} {T : ℚ} {D : List ℚ} {r : ℕ}
    {R : ScoreRes} (hs : score_sparse_spectra S1 S2 T D r = some R) :
    ∃ Ω, netOffsets (if scoreOrdered S1 S2 then S1 else S2).bin_width T D r = some Ω := by
  unfold score_sparse_spectra at hs
  rw [Option.bind_eq_some] at hs
  obtain ⟨net, hnet, -⟩ := hs
  obtain ⟨mds, mn, hoff, -, -⟩ := network_kernel_eq_some.1 hnet
  exact ⟨mds, hoff⟩

theorem posRe_mem_pos {l : List SEntry} {e : SEntry} (h : e ∈ posRe l) : 0 < e.re := by
  unfold posRe at h
  have := List.of_mem_filter h
  simpa using this

theorem posIm_mem_pos {l : List SEntry} {e : SEntry} (h : e ∈ posIm l) : 0 < e.im := by
  unfold posIm at h
  have := List.of_mem_filter h
  simpa using this

theorem truncR_nonneg {x : ℝ} (h : 0 < x) : 0 ≤ truncR x := by
  unfold truncR
  rw [if_pos h.le]
  exact Int.le_floor.2 (by exact_mod_cast h.le)

/-- C5 (amended): with fixed `react_steps`, raising the tolerance or
enlarging the mass-difference list can only increase (never decrease) the
entries of the four result matrices — and since the entries are
nonnegative sums, new nonzeros can only appear, not vanish.  (Raising
`react_steps` is *not* monotone: see the counterexample.) -/
theorem score_monotone_tol_massdiffs {S1 S2 : SStore} {T T' : ℚ} {D D' : List ℚ}
    {r : ℕ} {R R' : ScoreRes}
    (hw : 0 < (if scoreOrdered S1 S2 then S1 else S2).bin_width)
    (hT : T ≤ T') (hD : ∀ x ∈ D, x ∈ D')
    (hs : score_sparse_spectra S1 S2 T D r = some R)
    (hs' : score_sparse_spectra S1 S2 T' D' r = some R')
    (q r' : ℤ) :
    R.mzi q r' ≤ R'.mzi q r' ∧ R.nli q r' ≤ R'.nli q r' ∧
    R.mzc q r' ≤ R'.mzc q r' ∧ R.nlc q r' ≤ R'.nlc q r' := by
  obtain ⟨Ω, hΩ⟩ := score_some_netOffsets hs
  obtain ⟨Ω', hΩ'⟩ := score_some_netOffsets hs'
  obtain ⟨h1, h2, h3, h4⟩ := score_char hs hΩ q r'
  obtain ⟨h1', h2', h3', h4'⟩ := score_char hs' hΩ' q r'
  have hcnt : ∀ z, Ω.count z ≤ Ω'.count z := netOffsets_count_mono hw hT hD hΩ hΩ'
  have hcd : ∀ (flip : Bool) (x y : ℤ), cntDir Ω flip x y ≤ cntDir Ω' flip x y := by
    intro flip x y
    unfold cntDir
    cases flip
    · simp only [Bool.false_eq_true, if_false]
      apply hcnt
    · simp only [if_true]
      apply hcnt
  refine ⟨?_, ?_, ?_, ?_⟩
  · rw [h1, h1']
    unfold mziFormula
    refine sumL_le_sumL fun a ha => sumL_le_sumL fun b hb => ?_
    by_cases hc : (a.spec : ℤ) = q ∧ (b.spec : ℤ) = r'
    · rw [if_pos hc, if_pos hc, nsmul_eq_mul, nsmul_eq_mul]
      exact mul_le_mul_of_nonneg_right (by exact_mod_cast hcd _ _ _)
        (mul_nonneg (posRe_mem_pos ha).le (posRe_mem_pos hb).le)
    · rw [if_neg hc, if_neg hc]
  · rw [h2, h2']
    unfold nliFormula
    refine sumL_le_sumL fun u hu => sumL_le_sumL fun v hv => ?_
    have hu1 : u.1 ∈ posRe S1.ic := (List.of_mem_zip hu).1
    have hv1 : v.1 ∈ posRe S2.ic := (List.of_mem_zip hv).1
    by_cases hc : (u.2.spec : ℤ) = q ∧ (v.2.spec : ℤ) = r'
    · rw [if_pos hc, if_pos hc, nsmul_eq_mul, nsmul_eq_mul]
      exact mul_le_mul_of_nonneg_right (by exact_mod_cast hcd _ _ _)
        (mul_nonneg (posRe_mem_pos hu1).le (posRe_mem_pos hv1).le)
    · rw [if_neg hc, if_neg hc]
  · rw [h3, h3']
    unfold mzcFormula
    refine sumL_le_sumL fun u hu => sumL_le_sumL fun v hv => ?_
    have hu2 : u.2 ∈ posIm S1.ic := (List.of_mem_zip hu).2
    have hv2 : v.2 ∈ posIm S2.ic := (List.of_mem_zip hv).2
    by_cases hc : (u.1.spec : ℤ) = q ∧ (v.1.spec : ℤ) = r'
    · rw [if_pos hc, if_pos hc, nsmul_eq_mul, nsmul_eq_mul]
      exact mul_le_mul_of_nonneg_right (by exact_mod_cast hcd _ _ _)
        (mul_nonneg (truncR_nonneg (posIm_mem_pos hu2)) (truncR_nonneg (posIm_mem_pos hv2)))
    · rw [if_neg hc, if_neg hc]
  · rw [h4, h4']
    unfold nlcFormula
    refine sumL_le_sumL fun a ha => sumL_le_sumL fun b hb => ?_
    by_cases hc : (a.spec : ℤ) = q ∧ (b.spec : ℤ) = r'
    · rw [if_pos hc, if_pos hc, nsmul_eq_mul, nsmul_eq_mul]
      exact mul_le_mul_of_nonneg_right (by exact_mod_cast hcd _ _ _)
        (mul_nonneg (truncR_nonneg (posIm_mem_pos ha)) (truncR_nonneg (posIm_mem_pos hb)))
    · rw [if_neg hc, if_neg hc]

theorem symDiffs_ex1 : symDiffs [2/125] = some [-(2/125), 2/125] := by
  unfold symDiffs
  norm_num [List.insertionSort, List.orderedInsert]

theorem netOffsets_ex1 : netOffsets (1/1000) (1/1000) [2/125] 1 = some [-16, 16] := by
  unfold netOffsets
  rw [symDiffs_ex1]
  have hb : pyint (2 * ((1/1000 : ℚ) / (1/1000)) - 1) = 1 := by norm_num [pyint]
  rw [hb]
  simp only [Option.map_some', List.map_cons, List.map_nil]
  rw [rint_eq_of_cast (n := -16) (by norm_num), rint_eq_of_cast (n := 16) (by norm_num)]
  decide

theorem symDiffs_ex3 : symDiffs [2/125, 0] = some [-(2/125), 0, 2/125] := by
  unfold symDiffs
  norm_num [List.insertionSort, List.orderedInsert]

theorem netOffsets_ex2 : netOffsets (1/1000) (1/1000) [2/125] 2 = some [-32, 0, 32] := by
  unfold netOffsets
  rw [symDiffs_ex1]
  have hb : pyint (2 * ((1/1000 : ℚ) / (1/1000)) - 1) = 1 := by norm_num [pyint]
  rw [hb]
  simp only [Option.map_some', List.map_cons, List.map_nil]
  rw [rint_eq_of_cast (n := -16) (by norm_num), rint_eq_of_cast (n := 16) (by norm_num)]
  decide

theorem netOffsets_ex3 : netOffsets (1/1000) (1/1000) [2/125, 0] 1 = some [-16, 0, 16] := by
  unfold netOffsets
  rw [symDiffs_ex3]
  have hb : pyint (2 * ((1/1000 : ℚ) / (1/1000)) - 1) = 1 := by norm_num [pyint]
  rw [hb]
  simp only [Option.map_some', List.map_cons, List.map_nil]
  rw [rint_eq_of_cast (n := -16) (by norm_num), rint_eq_of_cast (n := 0) (by norm_num),
    rint_eq_of_cast (n := 16) (by norm_num)]
  decide

theorem kernel_exS2m_1 : network_kernel exS2m (1/1000) [2/125] 1 =
    some ⟨[⟨0, 0, 1, 0⟩, ⟨0, 32, 1, 0⟩, ⟨0, 200, 0, 1⟩, ⟨0, 232, 0, 1⟩], -84⟩ := by
  unfold network_kernel
  rw [show exS2m.bin_width = (1/1000 : ℚ) from rfl, netOffsets_ex1]
  rfl

theorem kernel_exS2m_2 : network_kernel exS2m (1/1000) [2/125] 2 =
    some ⟨[⟨0, 0, 1, 0⟩, ⟨0, 32, 1, 0⟩, ⟨0, 64, 1, 0⟩,
           ⟨0, 200, 0, 1⟩, ⟨0, 232, 0, 1⟩, ⟨0, 264, 0, 1⟩], -68⟩ := by
  unfold network_kernel
  rw [show exS2m.bin_width = (1/1000 : ℚ) from rfl, netOffsets_ex2]
  rfl

theorem kernel_exS2m_3 : network_kernel exS2m (1/1000) [2/125, 0] 1 =
    some ⟨[⟨0, 0, 1, 0⟩, ⟨0, 16, 1, 0⟩, ⟨0, 32, 1, 0⟩,
           ⟨0, 200, 0, 1⟩, ⟨0, 216, 0, 1⟩, ⟨0, 232, 0, 1⟩], -84⟩ := by
  unfold network_kernel
  rw [show exS2m.bin_width = (1/1000 : ℚ) from rfl, netOffsets_ex3]
  rfl

theorem truncR_one : truncR 1 = 1 := by
  unfold truncR
  rw [if_pos zero_le_one]
  exact Int.floor_one

theorem posRe_exS1m : posRe exS1m.ic = [⟨0, 116, 1, 0⟩] := by
  unfold posRe exS1m
  norm_num [List.filter]

theorem posIm_exS1m : posIm exS1m.ic = [⟨0, 200, 0, 1⟩] := by
  unfold posIm exS1m
  norm_num [List.filter]

theorem expand_exS1m : expand_sparse_spectra exS1m.ic =
    some ⟨[⟨116, 0, 1⟩], [⟨200, 0, 1⟩], [⟨116, 0, 1⟩], [⟨200, 0, 1⟩]⟩ := by
  unfold expand_sparse_spectra
  dsimp only
  rw [posRe_exS1m, posIm_exS1m, if_pos]
  · simp [List.zip, truncR_one]
  · refine ⟨rfl, ?_, ?_⟩ <;> (intro e he; simp at he; subst he; norm_num)

theorem expand_netA :
    expand_sparse_spectra [⟨0, 0, 1, 0⟩, ⟨0, 32, 1, 0⟩, ⟨0, 200, 0, 1⟩, ⟨0, 232, 0, 1⟩] =
    some ⟨[⟨0, 0, 1⟩, ⟨32, 0, 1⟩], [⟨200, 0, 1⟩, ⟨232, 0, 1⟩],
          [⟨0, 0, 1⟩, ⟨32, 0, 1⟩], [⟨200, 0, 1⟩, ⟨232, 0, 1⟩]⟩ := by
  unfold expand_sparse_spectra
  dsimp only
  have hR : posRe [(⟨0, 0, 1, 0⟩ : SEntry), ⟨0, 32, 1, 0⟩, ⟨0, 200, 0, 1⟩, ⟨0, 232, 0, 1⟩]
      = [⟨0, 0, 1, 0⟩, ⟨0, 32, 1, 0⟩] := by
    unfold posRe
    norm_num [List.filter]
  have hI : posIm [(⟨0, 0, 1, 0⟩ : SEntry), ⟨0, 32, 1, 0⟩, ⟨0, 200, 0, 1⟩, ⟨0, 232, 0, 1⟩]
      = [⟨0, 200, 0, 1⟩, ⟨0, 232, 0, 1⟩] := by
    unfold posIm
    norm_num [List.filter]
  rw [hR, hI, if_pos]
  · simp [List.zip, truncR_one]
  · refine ⟨rfl, ?_, ?_⟩ <;> (intro e he; simp at he; rcases he with he | he <;>
      (subst he; norm_num))

theorem expand_netB :
    expand_sparse_spectra [⟨0, 0, 1, 0⟩, ⟨0, 32, 1, 0⟩, ⟨0, 64, 1, 0⟩,
        ⟨0, 200, 0, 1⟩, ⟨0, 232, 0, 1⟩, ⟨0, 264, 0, 1⟩] =
    some ⟨[⟨0, 0, 1⟩, ⟨32, 0, 1⟩, ⟨64, 0, 1⟩], [⟨200, 0, 1⟩, ⟨232, 0, 1⟩, ⟨264, 0, 1⟩],
          [⟨0, 0, 1⟩, ⟨32, 0, 1⟩, ⟨64, 0, 1⟩], [⟨200, 0, 1⟩, ⟨232, 0, 1⟩, ⟨264, 0, 1⟩]⟩ := by
  unfold expand_sparse_spectra
  dsimp only
  have hR : posRe [(⟨0, 0, 1, 0⟩ : SEntry), ⟨0, 32, 1, 0⟩, ⟨0, 64, 1, 0⟩,
        ⟨0, 200, 0, 1⟩, ⟨0, 232, 0, 1⟩, ⟨0, 264, 0, 1⟩]
      = [⟨0, 0, 1, 0⟩, ⟨0, 32, 1, 0⟩, ⟨0, 64, 1, 0⟩] := by
    unfold posRe
    norm_num [List.filter]
  have hI : posIm [(⟨0, 0, 1, 0⟩ : SEntry), ⟨0, 32, 1, 0⟩, ⟨0, 64, 1, 0⟩,
        ⟨0, 200, 0, 1⟩, ⟨0, 232, 0, 1⟩, ⟨0, 264, 0, 1⟩]
      = [⟨0, 200, 0, 1⟩, ⟨0, 232, 0, 1⟩, ⟨0, 264, 0, 1⟩] := by
    unfold posIm
    norm_num [List.filter]
  rw [hR, hI, if_pos]
  · simp [List.zip, truncR_one]
  · refine ⟨rfl, ?_, ?_⟩ <;> (intro e he; simp at he; rcases he with he | he | he <;>
      (subst he; norm_num))

theorem expand_netC :
    expand_sparse_spectra [⟨0, 0, 1, 0⟩, ⟨0, 16, 1, 0⟩, ⟨0, 32, 1, 0⟩,
        ⟨0, 200, 0, 1⟩, ⟨0, 216, 0, 1⟩, ⟨0, 232, 0, 1⟩] =
    some ⟨[⟨0, 0, 1⟩, ⟨16, 0, 1⟩, ⟨32, 0, 1⟩], [⟨200, 0, 1⟩, ⟨216, 0, 1⟩, ⟨232, 0, 1⟩],
          [⟨0, 0, 1⟩, ⟨16, 0, 1⟩, ⟨32, 0, 1⟩], [⟨200, 0, 1⟩, ⟨216, 0, 1⟩, ⟨232, 0, 1⟩]⟩ := by
  unfold expand_sparse_spectra
  dsimp only
  have hR : posRe [(⟨0, 0, 1, 0⟩ : SEntry), ⟨0, 16, 1, 0⟩, ⟨0, 32, 1, 0⟩,
        ⟨0, 200, 0, 1⟩, ⟨0, 216, 0, 1⟩, ⟨0, 232, 0, 1⟩]
      = [⟨0, 0, 1, 0⟩, ⟨0, 16, 1, 0⟩, ⟨0, 32, 1, 0⟩] := by
    unfold posRe
    norm_num [List.filter]
  have hI : posIm [(⟨0, 0, 1, 0⟩ : SEntry), ⟨0, 16, 1, 0⟩, ⟨0, 32, 1, 0⟩,
        ⟨0, 200, 0, 1⟩, ⟨0, 216, 0, 1⟩, ⟨0, 232, 0, 1⟩]
      = [⟨0, 200, 0, 1⟩, ⟨0, 216, 0, 1⟩, ⟨0, 232, 0, 1⟩] := by
    unfold posIm
    norm_num [List.filter]
  rw [hR, hI, if_pos]
  · simp [List.zip, truncR_one]
  · refine ⟨rfl, ?_, ?_⟩ <;> (intro e he; simp at he; rcases he with he | he | he <;>
      (subst he; norm_num))

theorem hord_exm : scoreOrdered exS1m exS2m = false := by
  simp [scoreOrdered, exS1m, exS2m]

theorem score_eval_A : score_sparse_spectra exS1m exS2m (1/1000) [2/125] 1 = some resA := by
  unfold score_sparse_spectra
  rw [hord_exm]
  simp only [Bool.false_eq_true, if_false]
  rw [kernel_exS2m_1]
  simp only [Option.some_bind]
  rw [expand_exS1m]
  simp only [Option.some_bind]
  rw [expand_netA]
  rfl

theorem score_eval_B : score_sparse_spectra exS1m exS2m (1/1000) [2/125] 2 = some resB := by
  unfold score_sparse_spectra
  rw [hord_exm]
  simp only [Bool.false_eq_true, if_false]
  rw [kernel_exS2m_2]
  simp only [Option.some_bind]
  rw [expand_exS1m]
  simp only [Option.some_bind]
  rw [expand_netB]
  rfl

theorem score_eval_C : score_sparse_spectra exS1m exS2m (1/1000) [2/125, 0] 1 = some resC := by
  unfold score_sparse_spectra
  rw [hord_exm]
  simp only [Bool.false_eq_true, if_false]
  rw [kernel_exS2m_3]
  simp only [Option.some_bind]
  rw [expand_exS1m]
  simp only [Option.some_bind]
  rw [expand_netC]
  rfl

theorem resA_mzc : resA.mzc 0 0 = 1 := by decide

theorem resB_mzc : resB.mzc 0 0 = 0 := by decide

theorem resC_mzc : resC.mzc 0 0 = 1 := by decide

theorem resA_mzi : resA.mzi 0 0 = 1 := by
  norm_num [resA, scoreKey, alignPair, transposeC, padRows, padCols, cooDot]

theorem resB_mzi : resB.mzi 0 0 = 0 := by
  norm_num [resB, scoreKey, alignPair, transposeC, padRows, padCols, cooDot]

theorem score_monotone_tol_massdiffs_witness :
    (0 : ℚ) < (if scoreOrdered exS1m exS2m then exS1m else exS2m).bin_width ∧
    ((1:ℚ)/1000) ≤ 1/1000 ∧ (∀ x ∈ [(2:ℚ)/125], x ∈ [(2:ℚ)/125, 0]) ∧
    score_sparse_spectra exS1m exS2m (1/1000) [2/125] 1 = some resA ∧
    score_sparse_spectra exS1m exS2m (1/1000) [2/125, 0] 1 = some resC ∧
    (resA.mzi 0 0 ≤ resC.mzi 0 0 ∧ resA.nli 0 0 ≤ resC.nli 0 0 ∧
     resA.mzc 0 0 ≤ resC.mzc 0 0 ∧ resA.nlc 0 0 ≤ resC.nlc 0 0) := by
  have hw : (0 : ℚ) < (if scoreOrdered exS1m exS2m then exS1m else exS2m).bin_width := by
    rw [hord_exm]
    norm_num [exS2m]
  have hD : ∀ x ∈ [(2:ℚ)/125], x ∈ [(2:ℚ)/125, 0] := by
    intro x hx
    simp at hx
    simp [hx]
  exact ⟨hw, le_refl _, hD, score_eval_A, score_eval_C,
    score_monotone_tol_massdiffs hw (le_refl _) hD score_eval_A score_eval_C 0 0⟩

/-- C5 counterexample: raising `react_steps` is not monotone.  The kernel
offsets for `react_steps = r` are the exact `r`-fold sums of the
symmetrized mass differences, not their union over `k ≤ r`; unless `0` is
one of the binned differences, the offsets of step `r` are not a superset
of step `1`.  On concrete stores 16 bins apart with `D = [0.016]`, one
reaction step gives an `mzi`/`mzc` match (offset 16 survives), two steps
give offsets `{-32, 0, 32}` and the match disappears: the scores drop from
`1` to `0`. -/
theorem score_react_steps_cex :
    score_sparse_spectra exS1m exS2m (1/1000) [2/125] 1 = some resA ∧
    score_sparse_spectra exS1m exS2m (1/1000) [2/125] 2 = some resB ∧
    resA.mzi 0 0 = 1 ∧ resB.mzi 0 0 = 0 ∧ resA.mzc 0 0 = 1 ∧ resB.mzc 0 0 = 0 :=
  ⟨score_eval_A, score_eval_B, resA_mzi, resB_mzi, resA_mzc, resB_mzc⟩

theorem sumL_eq_zero {α : Type*} {β : Type*} [AddCommMonoid β] {l : List α} {f : α → β}
    (h : ∀ a ∈ l, f a = 0) : sumL l f = 0 :=
  (sumL_congr h).trans (sumL_zero l)

theorem withIds_ge {mzis : List Spectrum} {n : ℕ} {ip : ℕ × Peak}
    (h : ip ∈ withIds n mzis) : n ≤ ip.1 := by
  induction mzis generalizing n with
  | nil => simp [withIds] at h
  | cons s rest ih =>
    simp only [withIds, List.mem_append, List.mem_map] at h
    rcases h with ⟨pk, -, hpk⟩ | h
    · subst hpk
      exact le_refl n
    · exact (Nat.le_succ n).trans (ih h)

theorem mem_withIds {mzis : List Spectrum} {n : ℕ} {ip : ℕ × Peak}
    (h : ip ∈ withIds n mzis) :
    ∃ k, k < mzis.length ∧ ip.1 = n + k ∧ ip.2 ∈ mzis.getD k [] := by
  induction mzis generalizing n with
  | nil => simp [withIds] at h
  | cons s rest ih =>
    simp only [withIds, List.mem_append, List.mem_map] at h
    rcases h with ⟨pk, hpk, hip⟩ | h
    · subst hip
      exact ⟨0, by simp, by simp, hpk⟩
    · obtain ⟨k, hk, h1, h2⟩ := ih h
      exact ⟨k + 1, by simpa using hk, by omega, by simpa using h2⟩

theorem sumL_withIds_restrict {β : Type*} [AddCommMonoid β] (mzis : List Spectrum)
    (n s : ℕ) (hn : n ≤ s) (g : Peak → β) :
    sumL (withIds n mzis) (fun ip => if ip.1 = s then g ip.2 else 0)
      = sumL (mzis.getD (s - n) []) g := by
  induction mzis generalizing n with
  | nil => simp [withIds]
  | cons sp rest ih =>
    rw [withIds, sumL_append]
    by_cases hcase : n = s
    · subst hcase
      have h1 : sumL (sp.map fun pk => (n, pk))
          (fun ip => if ip.1 = n then g ip.2 else 0) = sumL sp g := by
        simp only [sumL_map]
        exact sumL_congr fun pk _ => by simp
      have h2 : sumL (withIds (n + 1) rest)
          (fun ip => if ip.1 = n then g ip.2 else 0) = 0 := by
        exact sumL_eq_zero fun ip hip => by
          have := withIds_ge hip
          rw [if_neg (by omega)]
      rw [h1, h2, add_zero, Nat.sub_self]
      rfl
    · have h1 : sumL (sp.map fun pk => (n, pk))
          (fun ip => if ip.1 = s then g ip.2 else 0) = 0 := by
        exact sumL_eq_zero fun ip hip => by
          simp only [List.mem_map] at hip
          obtain ⟨pk, -, hpk⟩ := hip
          subst hpk
          rw [if_neg hcase]
      rw [h1, zero_add, ih (n + 1) (by omega)]
      have hidx : s - n = (s - (n + 1)) + 1 := by omega
      rw [hidx]
      rfl

theorem sumL_filter_unique {β : Type*} [AddCommMonoid β] {γ : Type*} [DecidableEq γ]
    {l : List Peak} {f : Peak → γ} (hnd : (l.map f).Nodup) {a : Peak} (ha : a ∈ l)
    (g : Peak → β) :
    sumL l (fun b => if f b = f a then g b else 0) = g a := by
  induction l with
  | nil => simp at ha
  | cons hd tl ih =>
    rw [List.map_cons, List.nodup_cons] at hnd
    rw [sumL_cons]
    rcases List.mem_cons.1 ha with rfl | hmem
    · rw [if_pos rfl]
      have h0 : sumL tl (fun b => if f b = f a then g b else 0) = 0 := by
        refine sumL_eq_zero fun b hb => ?_
        rw [if_neg]
        intro he
        exact hnd.1 (he ▸ List.mem_map_of_mem f hb)
      rw [h0, add_zero]
    · have hne : ¬ f hd = f a := by
        intro he
        exact hnd.1 (he.symm ▸ List.mem_map_of_mem f hmem)
      rw [if_neg hne, zero_add, ih hnd.2 hmem]

theorem norm2_nonneg (l : List ℝ) : 0 ≤ norm2 l := Real.sqrt_nonneg _

theorem sq_norm2 (l : List ℝ) : norm2 l ^ 2 = (l.map fun x => x ^ 2).sum := by
  unfold norm2
  rw [Real.sq_sqrt]
  exact List.sum_nonneg fun x hx => by
    obtain ⟨y, -, hy⟩ := List.mem_map.1 hx
    subst hy
    positivity

theorem norm2_pos {l : List ℝ} {x : ℝ} (hx : x ∈ l) (hxp : 0 < x) :
    0 < norm2 l := by
  unfold norm2
  apply Real.sqrt_pos.2
  have hle : x ^ 2 ≤ (l.map fun y => y ^ 2).sum := by
    apply List.single_le_sum
    · intro y hy
      obtain ⟨z, -, hz⟩ := List.mem_map.1 hy
      subst hz
      positivity
    · exact List.mem_map_of_mem _ hx
  calc (0 : ℝ) < x ^ 2 := by positivity
    _ ≤ _ := hle

/-- Positivity of a spectrum's reciprocal intensity norm. -/
theorem inorms_getD_pos {mzis : List Spectrum} {p : ℝ} {k : ℕ}
    (hk : k < mzis.length)
    (hne : mzis.getD k [] ≠ []) (hpos : ∀ pk ∈ mzis.getD k [], 0 < pk.2) :
    0 < (inorms mzis p).getD k 0 := by
  unfold inorms
  rw [List.getD_eq_getElem?_getD, List.getElem?_map,
    List.getElem?_eq_getElem hk]
  simp only [Option.map_some', Option.getD_some]
  have hgd : mzis.getD k [] = mzis[k] := by
    rw [List.getD_eq_getElem?_getD, List.getElem?_eq_getElem hk]
    rfl
  rw [hgd] at hne hpos
  obtain ⟨pk0, hpk0⟩ := List.exists_mem_of_ne_nil _ hne
  apply div_pos one_pos
  refine norm2_pos (x := ((pk0.2 : ℝ)) ^ p) (List.mem_map_of_mem _ hpk0) ?_
  exact Real.rpow_pos_of_pos (by exact_mod_cast hpos pk0 hpk0) p

/-- A nonempty spectrum's count norm is exactly 1. -/
theorem cnorms_getD_one {mzis : List Spectrum} {k : ℕ} (hk : k < mzis.length)
    (hne : mzis.getD k [] ≠ []) : (cnorms mzis).getD k 0 = 1 := by
  unfold cnorms
  rw [List.getD_eq_getElem?_getD, List.getElem?_map, List.getElem?_eq_getElem hk]
  simp only [Option.map_some', Option.getD_some]
  have hgd : mzis.getD k [] = mzis[k] := by
    rw [List.getD_eq_getElem?_getD, List.getElem?_eq_getElem hk]
    rfl
  rw [hgd] at hne
  exact cnorm_eq_one (List.length_pos.2 hne)

theorem posSpectra_getD {mzis : List Spectrum} (h : PosSpectra mzis) {k : ℕ}
    (hk : k < mzis.length) :
    mzis.getD k [] ≠ [] ∧ ∀ pk ∈ mzis.getD k [], 0 < pk.2 := by
  have hgd : mzis.getD k [] = mzis[k] := by
    rw [List.getD_eq_getElem?_getD, List.getElem?_eq_getElem hk]
    rfl
  rw [hgd]
  exact h _ (List.getElem_mem hk)

/-- Under positive intensities the `real > 0` mask of a discretized store
selects exactly the intensity entries. -/
theorem posRe_disc {mzis : List Spectrum} {pmzs : List ℚ} {w : ℚ} {p : ℝ} {sh : ℤ}
    (hpos : PosSpectra mzis) :
    posRe (reEntries mzis p w sh ++ imEntries mzis pmzs w sh)
      = reEntries mzis p w sh := by
  unfold posRe
  rw [List.filter_append]
  have h1 : (reEntries mzis p w sh).filter (fun e => decide (0 < e.re))
      = reEntries mzis p w sh := by
    rw [List.filter_eq_self]
    intro e he
    unfold reEntries at he
    obtain ⟨ip, hip, he2⟩ := List.mem_map.1 he
    subst he2
    obtain ⟨k, hk, hid, hmem⟩ := mem_withIds hip
    obtain ⟨hne, hp⟩ := posSpectra_getD hpos hk
    simp only [decide_eq_true_eq]
    have h0 : (0 : ℕ) + k = k := by omega
    rw [h0] at hid
    rw [hid]
    exact mul_pos (inorms_getD_pos hk hne hp)
      (Real.rpow_pos_of_pos (by exact_mod_cast hp ip.2 hmem) p)
  have h2 : (imEntries mzis pmzs w sh).filter (fun e => decide (0 < e.re)) = [] := by
    rw [List.filter_eq_nil_iff]
    intro e he
    unfold imEntries at he
    obtain ⟨ip, -, he2⟩ := List.mem_map.1 he
    subst he2
    simp
  rw [h1, h2, List.append_nil]

/-- With every spectrum nonempty the `imag > 0` mask of a discretized
store selects exactly the count entries. -/
theorem posIm_disc {mzis : List Spectrum} {pmzs : List ℚ} {w : ℚ} {p : ℝ} {sh : ℤ}
    (hpos : PosSpectra mzis) :
    posIm (reEntries mzis p w sh ++ imEntries mzis pmzs w sh)
      = imEntries mzis pmzs w sh := by
  unfold posIm
  rw [List.filter_append]
  have h1 : (reEntries mzis p w sh).filter (fun e => decide (0 < e.im)) = [] := by
    rw [List.filter_eq_nil_iff]
    intro e he
    unfold reEntries at he
    obtain ⟨ip, -, he2⟩ := List.mem_map.1 he
    subst he2
    simp
  have h2 : (imEntries mzis pmzs w sh).filter (fun e => decide (0 < e.im))
      = imEntries mzis pmzs w sh := by
    rw [List.filter_eq_self]
    intro e he
    unfold imEntries at he
    obtain ⟨ip, hip, he2⟩ := List.mem_map.1 he
    subst he2
    obtain ⟨k, hk, hid, -⟩ := mem_withIds hip
    obtain ⟨hne, -⟩ := posSpectra_getD hpos hk
    have h0 : (0 : ℕ) + k = k := by omega
    rw [h0] at hid
    simp only [decide_eq_true_eq]
    rw [hid, cnorms_getD_one hk hne]
    exact one_pos
  rw [h1, h2, List.nil_append]

/-- The positional pairing of a discretized store matches each peak's
intensity entry with the same peak's count entry. -/
theorem pairs_disc {mzis : List Spectrum} {pmzs : List ℚ} {w : ℚ} {p : ℝ} {S : SStore}
    (hdisc : discretize_spectra mzis pmzs w p false = some S)
    (hpos : PosSpectra mzis) :
    pairs S = (withIds 0 mzis).map fun ip =>
      (⟨ip.1, mzBin w ip.2 + discShift mzis pmzs w,
         (inorms mzis p).getD ip.1 0 * ((ip.2.2 : ℝ)) ^ p, 0⟩,
       ⟨ip.1, nlBin w (pmzs.getD ip.1 0) ip.2 + discShift mzis pmzs w, 0,
         (cnorms mzis).getD ip.1 0⟩) := by
  unfold discretize_spectra at hdisc
  simp only [Bool.false_eq_true, if_false] at hdisc
  obtain ⟨-, -, -, hSe⟩ := discretizeCore_eq_some.1 hdisc
  subst hSe
  unfold pairs
  dsimp only
  rw [posRe_disc hpos, posIm_disc hpos]
  unfold reEntries imEntries
  rw [List.zip_map']

/-- C3 (amended): when scoring succeeds, every entry of the four result
matrices is nonnegative, and on discretized stores of positive-intensity
spectra the `mzc`/`nlc` entries equal the number of kernel-expanded
matching m/z (resp. neutral-loss) bins of the requested spectrum pair.
The claimed upper bound 1 on the `mzi`/`nli` entries is false: two peaks
sharing one bin drive the self-score diagonal to 49/25 (see the
counterexample). -/
theorem score_entries_nonneg_counts
    {mzis1 mzis2 : List Spectrum} {pmzs1 pmzs2 : List ℚ} {w1 w2 : ℚ} {p1 p2 : ℝ}
    {S1 S2 : SStore} {T : ℚ} {D : List ℚ} {r : ℕ} {R : ScoreRes} {Ω : List ℤ}
    (h1 : discretize_spectra mzis1 pmzs1 w1 p1 false = some S1)
    (h2 : discretize_spectra mzis2 pmzs2 w2 p2 false = some S2)
    (hpos1 : PosSpectra mzis1) (hpos2 : PosSpectra mzis2)
    (hs : score_sparse_spectra S1 S2 T D r = some R)
    (hΩ : netOffsets (if scoreOrdered S1 S2 then S1 else S2).bin_width T D r = some Ω)
    (q r' : ℤ) :
    (0 ≤ R.mzi q r' ∧ 0 ≤ R.nli q r' ∧ 0 ≤ R.mzc q r' ∧ 0 ≤ R.nlc q r') ∧
    R.mzc q r' = matchCount Ω (scoreOrdered S1 S2) (mzBinsIdx mzis1 w1)
      (mzBinsIdx mzis2 w2) q r' ∧
    R.nlc q r' = matchCount Ω (scoreOrdered S1 S2) (nlBinsIdx mzis1 pmzs1 w1)
      (nlBinsIdx mzis2 pmzs2 w2) q r' := by
  obtain ⟨e1, e2, e3, e4⟩ := score_char hs hΩ q r'
  have hcn1 : ∀ ip ∈ withIds 0 mzis1, truncR ((cnorms mzis1).getD ip.1 0) = 1 := by
    intro ip hip
    obtain ⟨k, hk, hid, -⟩ := mem_withIds hip
    have h0 : (0 : ℕ) + k = k := by omega
    rw [h0] at hid
    rw [hid, cnorms_getD_one hk (posSpectra_getD hpos1 hk).1, truncR_one]
  have hcn2 : ∀ ip ∈ withIds 0 mzis2, truncR ((cnorms mzis2).getD ip.1 0) = 1 := by
    intro ip hip
    obtain ⟨k, hk, hid, -⟩ := mem_withIds hip
    have h0 : (0 : ℕ) + k = k := by omega
    rw [h0] at hid
    rw [hid, cnorms_getD_one hk (posSpectra_getD hpos2 hk).1, truncR_one]
  refine ⟨⟨?_, ?_, ?_, ?_⟩, ?_, ?_⟩
  · rw [e1]
    unfold mziFormula
    refine sumL_nonneg fun a ha => sumL_nonneg fun b hb => ?_
    by_cases hc : (a.spec : ℤ) = q ∧ (b.spec : ℤ) = r'
    · rw [if_pos hc]
      exact nsmul_nonneg (mul_nonneg (posRe_mem_pos ha).le (posRe_mem_pos hb).le) _
    · rw [if_neg hc]
  · rw [e2]
    unfold nliFormula
    refine sumL_nonneg fun u hu => sumL_nonneg fun v hv => ?_
    by_cases hc : (u.2.spec : ℤ) = q ∧ (v.2.spec : ℤ) = r'
    · rw [if_pos hc]
      exact nsmul_nonneg (mul_nonneg (posRe_mem_pos (List.of_mem_zip hu).1).le
        (posRe_mem_pos (List.of_mem_zip hv).1).le) _
    · rw [if_neg hc]
  · rw [e3]
    unfold mzcFormula
    refine sumL_nonneg fun u hu => sumL_nonneg fun v hv => ?_
    by_cases hc : (u.1.spec : ℤ) = q ∧ (v.1.spec : ℤ) = r'
    · rw [if_pos hc]
      exact nsmul_nonneg (mul_nonneg (truncR_nonneg (posIm_mem_pos (List.of_mem_zip hu).2))
        (truncR_nonneg (posIm_mem_pos (List.of_mem_zip hv).2))) _
    · rw [if_neg hc]
  · rw [e4]
    unfold nlcFormula
    refine sumL_nonneg fun a ha => sumL_nonneg fun b hb => ?_
    by_cases hc : (a.spec : ℤ) = q ∧ (b.spec : ℤ) = r'
    · rw [if_pos hc]
      exact nsmul_nonneg (mul_nonneg (truncR_nonneg (posIm_mem_pos ha))
        (truncR_nonneg (posIm_mem_pos hb))) _
    · rw [if_neg hc]
  · rw [e3]
    have hp1 := pairs_disc h1 hpos1
    have hp2 := pairs_disc h2 hpos2
    have hsh1 : S1.shift = discShift mzis1 pmzs1 w1 := by
      unfold discretize_spectra at h1
      simp only [Bool.false_eq_true, if_false] at h1
      obtain ⟨-, -, -, hSe⟩ := discretizeCore_eq_some.1 h1
      rw [hSe]
    have hsh2 : S2.shift = discShift mzis2 pmzs2 w2 := by
      unfold discretize_spectra at h2
      simp only [Bool.false_eq_true, if_false] at h2
      obtain ⟨-, -, -, hSe⟩ := discretizeCore_eq_some.1 h2
      rw [hSe]
    unfold mzcFormula matchCount mzBinsIdx
    rw [hp1, hp2, hsh1, hsh2]
    simp only [sumL_map]
    refine sumL_congr fun ip1 hip1 => sumL_congr fun ip2 hip2 => ?_
    by_cases hc : (ip1.1 : ℤ) = q ∧ (ip2.1 : ℤ) = r'
    · rw [if_pos hc, if_pos hc, hcn1 ip1 hip1, hcn2 ip2 hip2]
      simp only [add_sub_cancel_right, nsmul_eq_mul, mul_one]
    · rw [if_neg hc, if_neg hc]
  · rw [e4]
    have hic1 : posIm S1.ic = imEntries mzis1 pmzs1 w1 (discShift mzis1 pmzs1 w1) ∧
        S1.shift = discShift mzis1 pmzs1 w1 := by
      unfold discretize_spectra at h1
      simp only [Bool.false_eq_true, if_false] at h1
      obtain ⟨-, -, -, hSe⟩ := discretizeCore_eq_some.1 h1
      rw [hSe]
      exact ⟨posIm_disc hpos1, rfl⟩
    have hic2 : posIm S2.ic = imEntries mzis2 pmzs2 w2 (discShift mzis2 pmzs2 w2) ∧
        S2.shift = discShift mzis2 pmzs2 w2 := by
      unfold discretize_spectra at h2
      simp only [Bool.false_eq_true, if_false] at h2
      obtain ⟨-, -, -, hSe⟩ := discretizeCore_eq_some.1 h2
      rw [hSe]
      exact ⟨posIm_disc hpos2, rfl⟩
    unfold nlcFormula matchCount nlBinsIdx
    rw [hic1.1, hic1.2, hic2.1, hic2.2]
    unfold imEntries
    simp only [sumL_map]
    refine sumL_congr fun ip1 hip1 => sumL_congr fun ip2 hip2 => ?_
    by_cases hc : (ip1.1 : ℤ) = q ∧ (ip2.1 : ℤ) = r'
    · rw [if_pos hc, if_pos hc, hcn1 ip1 hip1, hcn2 ip2 hip2]
      simp only [add_sub_cancel_right, nsmul_eq_mul, mul_one]
    · rw [if_neg hc, if_neg hc]

theorem symDiffs_zero : symDiffs [(0:ℚ)] = some [0] := by
  unfold symDiffs
  norm_num [List.insertionSort, List.orderedInsert]

theorem netOffsets_zero : netOffsets (1/1000) (1/1000) [0] 1 = some [0] := by
  unfold netOffsets
  rw [symDiffs_zero]
  have hb : pyint (2 * ((1/1000 : ℚ) / (1/1000)) - 1) = 1 := by norm_num [pyint]
  rw [hb]
  simp only [Option.map_some', List.map_cons, List.map_nil]
  rw [rint_eq_of_cast (n := 0) (by norm_num)]
  decide

theorem discretize_exStoreW :
    discretize_spectra [[((100 : ℚ), (1 : ℚ))]] [100] (1/1000) ((1:ℝ)/2) false
      = some exStoreW := by
  rw [discretize_spectra]
  simp only [Bool.false_eq_true, if_false]
  rw [discretizeCore_eq_some]
  have hmz1 : mzBin (1/1000) ((100 : ℚ), (1 : ℚ)) = 100000 := mzBin_ex1
  have hnl1 : nlBin (1/1000) 100 ((100 : ℚ), (1 : ℚ)) = 0 := by
    rw [nlBin, hmz1, rint_eq_of_cast (n := 100000) (by norm_num)]
    norm_num
  have hsh : discShift [[((100 : ℚ), (1 : ℚ))]] [100] (1/1000) = 0 := by
    have h : nlBins [[((100 : ℚ), (1 : ℚ))]] [100] (1/1000) = [0] := by
      show [nlBin (1/1000) ([(100:ℚ)].getD 0 0) ((100 : ℚ), (1 : ℚ))] = [0]
      rw [show [(100 : ℚ)].getD 0 0 = (100 : ℚ) from rfl, hnl1]
    rw [discShift, h]
    rfl
  have hin : inorms [[((100 : ℚ), (1 : ℚ))]] ((1:ℝ)/2) = [1] := by
    unfold inorms norm2
    norm_num [Real.one_rpow]
  have hcn : cnorms [[((100 : ℚ), (1 : ℚ))]] = [1] := by
    unfold cnorms
    simp only [List.map_cons, List.map_nil, List.length_cons, List.length_nil]
    rw [show ((0:ℕ)+1 : ℕ) = 1 from rfl]
    rw [cnorm_eq_one (by norm_num)]
  have hre : reEntries [[((100 : ℚ), (1 : ℚ))]] ((1:ℝ)/2) (1/1000) 0
      = [⟨0, 100000, 1, 0⟩] := by
    unfold reEntries
    simp only [withIds, List.map_cons, List.map_nil, List.map_append, List.nil_append,
      List.append_nil, hmz1, hin]
    norm_num [Real.one_rpow]
  have him : imEntries [[((100 : ℚ), (1 : ℚ))]] [100] (1/1000) 0
      = [⟨0, 0, 0, 1⟩] := by
    unfold imEntries
    simp only [withIds, List.map_cons, List.map_nil, List.map_append, List.nil_append,
      List.append_nil, hcn]
    rw [show [(100 : ℚ)].getD 0 0 = (100 : ℚ) from rfl, hnl1]
    norm_num
  rw [hsh, hre, him]
  refine ⟨by simp [withIds], ?_, ?_, ?_⟩
  · intro ip hip
    simp [withIds] at hip
    subst hip
    simp
  · intro e he
    simp at he
    rcases he with he | he <;> simp [he]
  · rfl

theorem posW : PosSpectra [[((100 : ℚ), (1 : ℚ))]] := by
  intro s hs
  rw [List.mem_singleton] at hs
  subst hs
  refine ⟨by simp, ?_⟩
  intro pk hpk
  rw [List.mem_singleton] at hpk
  subst hpk
  norm_num

theorem kernel_exStoreW : network_kernel exStoreW (1/1000) [0] 1 =
    some ⟨[⟨0, 100000, 1, 0⟩, ⟨0, 0, 0, 1⟩], 0⟩ := by
  unfold network_kernel
  rw [show exStoreW.bin_width = (1/1000 : ℚ) from rfl, netOffsets_zero]
  rfl

theorem expand_exStoreW : expand_sparse_spectra exStoreW.ic =
    some ⟨[⟨100000, 0, 1⟩], [⟨0, 0, 1⟩], [⟨100000, 0, 1⟩], [⟨0, 0, 1⟩]⟩ := by
  unfold expand_sparse_spectra
  dsimp only
  have hR : posRe exStoreW.ic = [⟨0, 100000, 1, 0⟩] := by
    unfold posRe exStoreW
    norm_num [List.filter]
  have hI : posIm exStoreW.ic = [⟨0, 0, 0, 1⟩] := by
    unfold posIm exStoreW
    norm_num [List.filter]
  rw [hR, hI, if_pos]
  · simp [List.zip, truncR_one]
  · refine ⟨rfl, ?_, ?_⟩ <;> (intro e he; simp at he; subst he; norm_num)

theorem hordW : scoreOrdered exStoreW exStoreW = false := by
  simp [scoreOrdered]

theorem score_eval_W : score_sparse_spectra exStoreW exStoreW (1/1000) [0] 1
    = some resW := by
  unfold score_sparse_spectra
  rw [hordW]
  simp only [Bool.false_eq_true, if_false]
  rw [kernel_exStoreW]
  simp only [Option.some_bind]
  rw [show [(⟨0, 100000, 1, 0⟩ : SEntry), ⟨0, 0, 0, 1⟩] = exStoreW.ic from rfl,
    expand_exStoreW]
  simp only [Option.some_bind]
  rfl

theorem rpow_nine_half : (9:ℝ) ^ ((1:ℝ)/2) = 3 := by
  rw [show (9:ℝ) = (3:ℝ)^(2:ℕ) by norm_num, ← Real.rpow_natCast (3:ℝ) 2,
    ← Real.rpow_mul (by norm_num : (0:ℝ) ≤ 3)]
  norm_num

theorem rpow_sixteen_half : (16:ℝ) ^ ((1:ℝ)/2) = 4 := by
  rw [show (16:ℝ) = (4:ℝ)^(2:ℕ) by norm_num, ← Real.rpow_natCast (4:ℝ) 2,
    ← Real.rpow_mul (by norm_num : (0:ℝ) ≤ 4)]
  norm_num

theorem norm2_three_four : norm2 [(3:ℝ), 4] = 5 := by
  unfold norm2
  simp only [List.map_cons, List.map_nil, List.sum_cons, List.sum_nil]
  rw [show (3:ℝ)^2 + ((4:ℝ)^2 + 0) = 5^2 by norm_num, Real.sqrt_sq (by norm_num)]

theorem discretize_exStoreC2 :
    discretize_spectra [[((100 : ℚ), (9 : ℚ)), ((100 : ℚ), (16 : ℚ))]] [100] (1/1000)
      ((1:ℝ)/2) false = some exStoreC2 := by
  rw [discretize_spectra]
  simp only [Bool.false_eq_true, if_false]
  rw [discretizeCore_eq_some]
  have hmz1 : mzBin (1/1000) ((100 : ℚ), (9 : ℚ)) = 100000 :=
    rint_eq_of_cast (by norm_num)
  have hmz2 : mzBin (1/1000) ((100 : ℚ), (16 : ℚ)) = 100000 :=
    rint_eq_of_cast (by norm_num)
  have hnl1 : nlBin (1/1000) 100 ((100 : ℚ), (9 : ℚ)) = 0 := by
    rw [nlBin, hmz1, rint_eq_of_cast (n := 100000) (by norm_num)]
    norm_num
  have hnl2 : nlBin (1/1000) 100 ((100 : ℚ), (16 : ℚ)) = 0 := by
    rw [nlBin, hmz2, rint_eq_of_cast (n := 100000) (by norm_num)]
    norm_num
  have hsh : discShift [[((100 : ℚ), (9 : ℚ)), ((100 : ℚ), (16 : ℚ))]] [100] (1/1000)
      = 0 := by
    have h : nlBins [[((100 : ℚ), (9 : ℚ)), ((100 : ℚ), (16 : ℚ))]] [100] (1/1000)
        = [0, 0] := by
      show [nlBin (1/1000) ([(100:ℚ)].getD 0 0) ((100 : ℚ), (9 : ℚ)),
            nlBin (1/1000) ([(100:ℚ)].getD 0 0) ((100 : ℚ), (16 : ℚ))] = [0, 0]
      rw [show [(100 : ℚ)].getD 0 0 = (100 : ℚ) from rfl, hnl1, hnl2]
    rw [discShift, h]
    rfl
  have hin : inorms [[((100 : ℚ), (9 : ℚ)), ((100 : ℚ), (16 : ℚ))]] ((1:ℝ)/2)
      = [1/5] := by
    unfold inorms
    simp only [List.map_cons, List.map_nil]
    norm_num [rpow_nine_half, rpow_sixteen_half, norm2_three_four]
  have hcn : cnorms [[((100 : ℚ), (9 : ℚ)), ((100 : ℚ), (16 : ℚ))]] = [1] := by
    unfold cnorms
    simp only [List.map_cons, List.map_nil, List.length_cons, List.length_nil]
    rw [show ((0:ℕ)+1+1 : ℕ) = 2 from rfl]
    rw [cnorm_eq_one (by norm_num)]
  have hre : reEntries [[((100 : ℚ), (9 : ℚ)), ((100 : ℚ), (16 : ℚ))]] ((1:ℝ)/2)
      (1/1000) 0 = [⟨0, 100000, 3/5, 0⟩, ⟨0, 100000, 4/5, 0⟩] := by
    unfold reEntries
    simp only [withIds, List.map_cons, List.map_nil, List.map_append, List.nil_append,
      List.append_nil, hmz1, hmz2, hin]
    norm_num [rpow_nine_half, rpow_sixteen_half]
  have him : imEntries [[((100 : ℚ), (9 : ℚ)), ((100 : ℚ), (16 : ℚ))]] [100] (1/1000)
      0 = [⟨0, 0, 0, 1⟩, ⟨0, 0, 0, 1⟩] := by
    unfold imEntries
    simp only [withIds, List.map_cons, List.map_nil, List.map_append, List.nil_append,
      List.append_nil, hcn]
    rw [show [(100 : ℚ)].getD 0 0 = (100 : ℚ) from rfl, hnl1, hnl2]
    norm_num
  rw [hsh, hre, him]
  refine ⟨by simp [withIds], ?_, ?_, ?_⟩
  · intro ip hip
    simp [withIds] at hip
    rcases hip with hip | hip <;> (subst hip; simp)
  · intro e he
    simp at he
    rcases he with he | he | he <;> simp [he]
  · rfl

theorem posC2 : PosSpectra [[((100 : ℚ), (9 : ℚ)), ((100 : ℚ), (16 : ℚ))]] := by
  intro s hs
  rw [List.mem_singleton] at hs
  subst hs
  refine ⟨by simp, ?_⟩
  intro pk hpk
  simp at hpk
  rcases hpk with hpk | hpk <;> (subst hpk; norm_num)

theorem kernel_exStoreC2 : network_kernel exStoreC2 (1/1000) [0] 1 =
    some ⟨[⟨0, 100000, 3/5, 0⟩, ⟨0, 100000, 4/5, 0⟩, ⟨0, 0, 0, 1⟩, ⟨0, 0, 0, 1⟩],
          0⟩ := by
  unfold network_kernel
  rw [show exStoreC2.bin_width = (1/1000 : ℚ) from rfl, netOffsets_zero]
  rfl

theorem expand_exStoreC2 : expand_sparse_spectra exStoreC2.ic =
    some ⟨[⟨100000, 0, 3/5⟩, ⟨100000, 0, 4/5⟩], [⟨0, 0, 3/5⟩, ⟨0, 0, 4/5⟩],
          [⟨100000, 0, 1⟩, ⟨100000, 0, 1⟩], [⟨0, 0, 1⟩, ⟨0, 0, 1⟩]⟩ := by
  unfold expand_sparse_spectra
  dsimp only
  have hR : posRe exStoreC2.ic = [⟨0, 100000, 3/5, 0⟩, ⟨0, 100000, 4/5, 0⟩] := by
    unfold posRe exStoreC2
    norm_num [List.filter]
  have hI : posIm exStoreC2.ic = [⟨0, 0, 0, 1⟩, ⟨0, 0, 0, 1⟩] := by
    unfold posIm exStoreC2
    norm_num [List.filter]
  rw [hR, hI, if_pos]
  · simp [List.zip, truncR_one]
  · refine ⟨rfl, ?_, ?_⟩
    · intro e he
      simp at he
      rcases he with he | he <;> (subst he; norm_num)
    · intro e he
      simp at he
      subst he
      norm_num

theorem hordC2 : scoreOrdered exStoreC2 exStoreC2 = false := by
  simp [scoreOrdered]

theorem score_eval_X : score_sparse_spectra exStoreC2 exStoreC2 (1/1000) [0] 1
    = some resX := by
  unfold score_sparse_spectra
  rw [hordC2]
  simp only [Bool.false_eq_true, if_false]
  rw [kernel_exStoreC2]
  simp only [Option.some_bind]
  rw [show [(⟨0, 100000, 3/5, 0⟩ : SEntry), ⟨0, 100000, 4/5, 0⟩, ⟨0, 0, 0, 1⟩,
      ⟨0, 0, 0, 1⟩] = exStoreC2.ic from rfl, expand_exStoreC2]
  simp only [Option.some_bind]
  rfl

theorem resX_mzi : resX.mzi 0 0 = 49/25 := by
  norm_num [resX, scoreKey, alignPair, transposeC, padRows, padCols, cooDot]

theorem resX_mzc : resX.mzc 0 0 = 4 := by decide

theorem score_entries_nonneg_counts_witness :
    discretize_spectra [[((100 : ℚ), (1 : ℚ))]] [100] (1/1000) ((1:ℝ)/2) false
      = some exStoreW ∧
    PosSpectra [[((100 : ℚ), (1 : ℚ))]] ∧
    score_sparse_spectra exStoreW exStoreW (1/1000) [0] 1 = some resW ∧
    netOffsets (if scoreOrdered exStoreW exStoreW then exStoreW else exStoreW).bin_width
      (1/1000) [0] 1 = some [0] ∧
    ((0 ≤ resW.mzi 0 0 ∧ 0 ≤ resW.nli 0 0 ∧ 0 ≤ resW.mzc 0 0 ∧ 0 ≤ resW.nlc 0 0) ∧
     resW.mzc 0 0 = matchCount [0] (scoreOrdered exStoreW exStoreW)
       (mzBinsIdx [[((100 : ℚ), (1 : ℚ))]] (1/1000))
       (mzBinsIdx [[((100 : ℚ), (1 : ℚ))]] (1/1000)) 0 0 ∧
     resW.nlc 0 0 = matchCount [0] (scoreOrdered exStoreW exStoreW)
       (nlBinsIdx [[((100 : ℚ), (1 : ℚ))]] [100] (1/1000))
       (nlBinsIdx [[((100 : ℚ), (1 : ℚ))]] [100] (1/1000)) 0 0) := by
  have hoff : netOffsets
      (if scoreOrdered exStoreW exStoreW then exStoreW else exStoreW).bin_width
      (1/1000) [0] 1 = some [0] := by
    rw [hordW]
    exact netOffsets_zero
  exact ⟨discretize_exStoreW, posW, score_eval_W, hoff,
    score_entries_nonneg_counts discretize_exStoreW discretize_exStoreW posW posW
      score_eval_W hoff 0 0⟩

/-- C3 counterexample: the `mzi` entries are not bounded by 1.  The
spectrum `[(100, 9), (100, 16)]` puts both peaks in one m/z bin; its
normalized intensities 3/5 and 4/5 sum inside the bin, and the self-score
diagonal is `(3/5 + 4/5)^2 = 49/25 > 1`. -/
theorem score_entries_above_one_cex :
    discretize_spectra [[((100 : ℚ), (9 : ℚ)), ((100 : ℚ), (16 : ℚ))]] [100] (1/1000)
      ((1:ℝ)/2) false = some exStoreC2 ∧
    score_sparse_spectra exStoreC2 exStoreC2 (1/1000) [0] 1 = some resX ∧
    resX.mzi 0 0 = 49/25 ∧ ¬ resX.mzi 0 0 ≤ 1 :=
  ⟨discretize_exStoreC2, score_eval_X, resX_mzi, by rw [resX_mzi]; norm_num⟩

theorem sumL_mul_left {α : Type*} (l : List α) (c : ℝ) (f : α → ℝ) :
    sumL l (fun a => c * f a) = c * sumL l f := by
  induction l with
  | nil => simp
  | cons a t ih => rw [sumL_cons, sumL_cons, ih, mul_add]

theorem sumL_const_one (l : List Peak) : sumL l (fun _ => (1:ℤ)) = l.length := by
  induction l with
  | nil => rfl
  | cons a t ih =>
    rw [sumL_cons, ih]
    simp
    omega

theorem count_singleton_zero (z : ℤ) :
    ([0] : List ℤ).count z = if z = 0 then 1 else 0 := by
  rcases eq_or_ne z 0 with h | h
  · subst h
    rfl
  · rw [if_neg h, List.count_eq_zero]
    simp
    omega

theorem cntDir_zero (x y : ℤ) :
    cntDir [0] false x y = if x = y then 1 else 0 := by
  unfold cntDir
  rw [if_neg (by simp), count_singleton_zero]
  rcases eq_or_ne x y with h | h
  · rw [if_pos (by omega), if_pos h]
  · rw [if_neg (by omega), if_neg h]

theorem inorms_getD_eq {mzis : List Spectrum} {p : ℝ} {k : ℕ} (hk : k < mzis.length) :
    (inorms mzis p).getD k 0
      = 1 / norm2 ((mzis.getD k []).map fun pk => ((pk.2 : ℝ)) ^ p) := by
  unfold inorms
  rw [List.getD_eq_getElem?_getD, List.getElem?_map, List.getElem?_eq_getElem hk]
  simp only [Option.map_some', Option.getD_some]
  have hgd : mzis.getD k [] = mzis[k] := by
    rw [List.getD_eq_getElem?_getD, List.getElem?_eq_getElem hk]
    rfl
  rw [hgd]

theorem getD_mem_of_lt {mzis : List Spectrum} {k : ℕ} (hk : k < mzis.length) :
    mzis.getD k [] ∈ mzis := by
  have hgd : mzis.getD k [] = mzis[k] := by
    rw [List.getD_eq_getElem?_getD, List.getElem?_eq_getElem hk]
    rfl
  rw [hgd]
  exact List.getElem_mem hk

/-- Restricting a double sum over all id-tagged peaks to one spectrum id
selects the peaks of that spectrum, in both factors. -/
theorem double_restrict {β : Type*} [AddCommMonoid β] (mzis : List Spectrum) (k : ℕ)
    (g : Peak → Peak → β) :
    sumL (withIds 0 mzis) (fun ip1 => sumL (withIds 0 mzis) fun ip2 =>
      if (ip1.1 : ℤ) = (k : ℤ) ∧ (ip2.1 : ℤ) = (k : ℤ) then g ip1.2 ip2.2 else 0)
      = sumL (mzis.getD k []) fun pk1 => sumL (mzis.getD k []) fun pk2 => g pk1 pk2 := by
  have hstep : ∀ ip1 : ℕ × Peak,
      sumL (withIds 0 mzis) (fun ip2 =>
        if (ip1.1 : ℤ) = (k : ℤ) ∧ (ip2.1 : ℤ) = (k : ℤ) then g ip1.2 ip2.2 else 0)
      = if ip1.1 = k then sumL (mzis.getD k []) (fun pk2 => g ip1.2 pk2) else 0 := by
    intro ip1
    by_cases h1 : ip1.1 = k
    · rw [if_pos h1]
      have hc : ∀ ip2 ∈ withIds 0 mzis,
          (if (ip1.1 : ℤ) = (k : ℤ) ∧ (ip2.1 : ℤ) = (k : ℤ) then g ip1.2 ip2.2 else 0)
          = if ip2.1 = k then g ip1.2 ip2.2 else 0 := by
        intro ip2 hip2
        by_cases h2 : ip2.1 = k
        · rw [if_pos ⟨by exact_mod_cast h1, by exact_mod_cast h2⟩, if_pos h2]
        · rw [if_neg (fun hcon => h2 (by exact_mod_cast hcon.2)), if_neg h2]
      rw [sumL_congr hc, sumL_withIds_restrict mzis 0 k (Nat.zero_le k), Nat.sub_zero]
    · rw [if_neg h1]
      exact sumL_eq_zero fun ip2 _ =>
        if_neg (fun hcon => h1 (by exact_mod_cast hcon.1))
  rw [sumL_congr fun ip1 _ => hstep ip1,
    sumL_withIds_restrict mzis 0 k (Nat.zero_le k) fun pk1 =>
      sumL (mzis.getD k []) fun pk2 => g pk1 pk2,
    Nat.sub_zero]

/-- C2 (amended): on a discretized store of positive-intensity spectra
whose peaks occupy pairwise-distinct m/z bins within each spectrum, a
successful self-score whose kernel offset list is exactly `[0]` has
`mzi` diagonal exactly 1 (the spec's tolerance 1e-9 is not needed) and
`mzc` diagonal exactly the spectrum's peak count.  Without the
distinct-bin condition both parts fail (see the counterexample). -/
theorem self_score_diagonal
    {mzis : List Spectrum} {pmzs : List ℚ} {w : ℚ} {p : ℝ} {S : SStore}
    {T : ℚ} {D : List ℚ} {r : ℕ} {R : ScoreRes}
    (hdisc : discretize_spectra mzis pmzs w p false = some S)
    (hpos : PosSpectra mzis)
    (hsep : ∀ s ∈ mzis, (s.map fun pk => mzBin w pk).Nodup)
    (hΩ : netOffsets (if scoreOrdered S S then S else S).bin_width T D r = some [0])
    (hs : score_sparse_spectra S S T D r = some R)
    (k : ℕ) (hk : k < mzis.length) :
    R.mzi k k = 1 ∧ R.mzc k k = ((mzis.getD k []).length : ℤ) := by
  obtain ⟨e1, -, e3, -⟩ := score_char hs hΩ (k : ℤ) (k : ℤ)
  have hord : scoreOrdered S S = false := by simp [scoreOrdered]
  rw [hord] at e1 e3
  have hpairs := pairs_disc hdisc hpos
  have hcn : ∀ ip ∈ withIds 0 mzis, truncR ((cnorms mzis).getD ip.1 0) = 1 := by
    intro ip hip
    obtain ⟨j, hj, hid, -⟩ := mem_withIds hip
    have h0 : (0 : ℕ) + j = j := by omega
    rw [h0] at hid
    rw [hid, cnorms_getD_one hj (posSpectra_getD hpos hj).1, truncR_one]
  have hsepk : ((mzis.getD k []).map fun pk => mzBin w pk).Nodup :=
    hsep _ (getD_mem_of_lt hk)
  unfold discretize_spectra at hdisc
  simp only [Bool.false_eq_true, if_false] at hdisc
  obtain ⟨-, -, -, hSe⟩ := discretizeCore_eq_some.1 hdisc
  constructor
  · rw [e1]
    unfold mziFormula
    rw [show posRe S.ic = reEntries mzis p w (discShift mzis pmzs w) by
          rw [hSe]; exact posRe_disc hpos,
        show S.shift = discShift mzis pmzs w by rw [hSe]]
    unfold reEntries
    simp only [sumL_map]
    have hcg : ∀ ip1 ∈ withIds 0 mzis, ∀ ip2 ∈ withIds 0 mzis,
        (if (ip1.1 : ℤ) = (k : ℤ) ∧ (ip2.1 : ℤ) = (k : ℤ) then
          (cntDir [0] false
            (mzBin w ip1.2 + discShift mzis pmzs w - discShift mzis pmzs w)
            (mzBin w ip2.2 + discShift mzis pmzs w - discShift mzis pmzs w)) •
            ((inorms mzis p).getD ip1.1 0 * ((ip1.2.2 : ℝ)) ^ p *
             ((inorms mzis p).getD ip2.1 0 * ((ip2.2.2 : ℝ)) ^ p)) else 0)
        = if (ip1.1 : ℤ) = (k : ℤ) ∧ (ip2.1 : ℤ) = (k : ℤ) then
            (if mzBin w ip2.2 = mzBin w ip1.2 then
              ((inorms mzis p).getD k 0 * ((ip1.2.2 : ℝ)) ^ p) *
              ((inorms mzis p).getD k 0 * ((ip2.2.2 : ℝ)) ^ p) else 0) else 0 := by
      intro ip1 _ ip2 _
      by_cases hcond : (ip1.1 : ℤ) = (k : ℤ) ∧ (ip2.1 : ℤ) = (k : ℤ)
      · rw [if_pos hcond, if_pos hcond]
        have h1 : ip1.1 = k := by exact_mod_cast hcond.1
        have h2 : ip2.1 = k := by exact_mod_cast hcond.2
        rw [h1, h2]
        simp only [add_sub_cancel_right]
        rw [cntDir_zero]
        rcases eq_or_ne (mzBin w ip1.2) (mzBin w ip2.2) with he | he
        · rw [if_pos he, if_pos he.symm, one_smul, mul_assoc]
        · rw [if_neg he, if_neg (fun hcon => he hcon.symm), zero_smul]
      · rw [if_neg hcond, if_neg hcond]
    rw [sumL_congr fun ip1 hip1 => sumL_congr fun ip2 hip2 => hcg ip1 hip1 ip2 hip2,
      double_restrict mzis k (fun pk1 pk2 =>
        if mzBin w pk2 = mzBin w pk1 then
          ((inorms mzis p).getD k 0 * ((pk1.2 : ℝ)) ^ p) *
          ((inorms mzis p).getD k 0 * ((pk2.2 : ℝ)) ^ p) else 0)]
    have hcol : ∀ pk1 ∈ mzis.getD k [],
        (sumL (mzis.getD k []) fun pk2 =>
          if mzBin w pk2 = mzBin w pk1 then
            ((inorms mzis p).getD k 0 * ((pk1.2 : ℝ)) ^ p) *
            ((inorms mzis p).getD k 0 * ((pk2.2 : ℝ)) ^ p) else 0)
        = ((inorms mzis p).getD k 0 * ((pk1.2 : ℝ)) ^ p) *
          ((inorms mzis p).getD k 0 * ((pk1.2 : ℝ)) ^ p) := by
      intro pk1 hpk1
      exact sumL_filter_unique hsepk hpk1 _
    rw [sumL_congr hcol]
    have hN : 0 < norm2 ((mzis.getD k []).map fun pk => ((pk.2 : ℝ)) ^ p) := by
      obtain ⟨hne, hp⟩ := posSpectra_getD hpos hk
      obtain ⟨pk0, hpk0⟩ := List.exists_mem_of_ne_nil _ hne
      exact norm2_pos (x := ((pk0.2 : ℝ)) ^ p)
        (List.mem_map_of_mem (fun pk : Peak => ((pk.2 : ℝ)) ^ p) hpk0)
        (Real.rpow_pos_of_pos (x := ((pk0.2 : ℝ))) (by exact_mod_cast hp pk0 hpk0) p)
    rw [inorms_getD_eq hk]
    have hsq : ∀ pk1 : Peak,
        (1 / norm2 ((mzis.getD k []).map fun pk => ((pk.2 : ℝ)) ^ p) * ((pk1.2 : ℝ)) ^ p) *
        (1 / norm2 ((mzis.getD k []).map fun pk => ((pk.2 : ℝ)) ^ p) * ((pk1.2 : ℝ)) ^ p)
        = (1 / norm2 ((mzis.getD k []).map fun pk => ((pk.2 : ℝ)) ^ p)) ^ 2 *
          (((pk1.2 : ℝ)) ^ p) ^ 2 := by
      intro pk1
      ring
    rw [sumL_congr fun pk1 _ => hsq pk1, sumL_mul_left]
    have hsum : sumL (mzis.getD k []) (fun pk1 => (((pk1.2 : ℝ)) ^ p) ^ 2)
        = norm2 ((mzis.getD k []).map fun pk => ((pk.2 : ℝ)) ^ p) ^ 2 := by
      rw [sq_norm2]
      simp [sumL, List.map_map]
      rfl
    rw [hsum, one_div, inv_pow, inv_mul_cancel₀ (pow_ne_zero 2 hN.ne')]
  · rw [e3]
    unfold mzcFormula
    rw [hpairs]
    simp only [sumL_map]
    have hsh : S.shift = discShift mzis pmzs w := by rw [hSe]
    rw [hsh]
    have hcg : ∀ ip1 ∈ withIds 0 mzis, ∀ ip2 ∈ withIds 0 mzis,
        (if (ip1.1 : ℤ) = (k : ℤ) ∧ (ip2.1 : ℤ) = (k : ℤ) then
          (cntDir [0] false
            (mzBin w ip1.2 + discShift mzis pmzs w - discShift mzis pmzs w)
            (mzBin w ip2.2 + discShift mzis pmzs w - discShift mzis pmzs w)) •
            (truncR ((cnorms mzis).getD ip1.1 0) * truncR ((cnorms mzis).getD ip2.1 0))
          else 0)
        = if (ip1.1 : ℤ) = (k : ℤ) ∧ (ip2.1 : ℤ) = (k : ℤ) then
            (if mzBin w ip2.2 = mzBin w ip1.2 then (1:ℤ) else 0) else 0 := by
      intro ip1 hip1 ip2 hip2
      by_cases hcond : (ip1.1 : ℤ) = (k : ℤ) ∧ (ip2.1 : ℤ) = (k : ℤ)
      · rw [if_pos hcond, if_pos hcond, hcn ip1 hip1, hcn ip2 hip2]
        simp only [add_sub_cancel_right]
        rw [cntDir_zero]
        rcases eq_or_ne (mzBin w ip1.2) (mzBin w ip2.2) with he | he
        · rw [if_pos he, if_pos he.symm, mul_one, one_smul]
        · rw [if_neg he, if_neg (fun hcon => he hcon.symm), zero_smul]
      · rw [if_neg hcond, if_neg hcond]
    rw [sumL_congr fun ip1 hip1 => sumL_congr fun ip2 hip2 => hcg ip1 hip1 ip2 hip2,
      double_restrict mzis k (fun pk1 pk2 =>
        if mzBin w pk2 = mzBin w pk1 then (1:ℤ) else 0)]
    have hcol : ∀ pk1 ∈ mzis.getD k [],
        (sumL (mzis.getD k []) fun pk2 =>
          if mzBin w pk2 = mzBin w pk1 then (1:ℤ) else 0) = 1 := by
      intro pk1 hpk1
      exact sumL_filter_unique hsepk hpk1 (fun _ => (1:ℤ))
    rw [sumL_congr hcol, sumL_const_one]

theorem self_score_diagonal_witness :
    discretize_spectra [[((100 : ℚ), (1 : ℚ))]] [100] (1/1000) ((1:ℝ)/2) false
      = some exStoreW ∧
    PosSpectra [[((100 : ℚ), (1 : ℚ))]] ∧
    (∀ s ∈ [[((100 : ℚ), (1 : ℚ))]], (s.map fun pk => mzBin (1/1000) pk).Nodup) ∧
    netOffsets (if scoreOrdered exStoreW exStoreW then exStoreW else exStoreW).bin_width
      (1/1000) [0] 1 = some [0] ∧
    score_sparse_spectra exStoreW exStoreW (1/1000) [0] 1 = some resW ∧
    (0 : ℕ) < [[((100 : ℚ), (1 : ℚ))]].length ∧
    (resW.mzi 0 0 = 1 ∧
     resW.mzc 0 0 = (([[((100 : ℚ), (1 : ℚ))]].getD 0 []).length : ℤ)) := by
  have hoff2 : netOffsets
      (if scoreOrdered exStoreW exStoreW then exStoreW else exStoreW).bin_width
      (1/1000) [0] 1 = some [0] := by
    rw [hordW]
    exact netOffsets_zero
  have hsepW : ∀ s ∈ [[((100 : ℚ), (1 : ℚ))]],
      (s.map fun pk => mzBin (1/1000) pk).Nodup := by
    intro s hs
    rw [List.mem_singleton] at hs
    subst hs
    simp
  exact ⟨discretize_exStoreW, posW, hsepW, hoff2, score_eval_W, by norm_num,
    self_score_diagonal discretize_exStoreW posW hsepW hoff2 score_eval_W 0
      (by norm_num)⟩

/-- C2 counterexample: the self-score diagonal is neither 1 (within 1e-9)
nor the peak count when two peaks of a spectrum share one m/z bin.  For
`[(100, 9), (100, 16)]` the diagonal `mzi` entry is 49/25 and the diagonal
`mzc` entry is 4, while the spectrum has 2 peaks. -/
theorem self_score_diagonal_cex :
    discretize_spectra [[((100 : ℚ), (9 : ℚ)), ((100 : ℚ), (16 : ℚ))]] [100] (1/1000)
      ((1:ℝ)/2) false = some exStoreC2 ∧
    score_sparse_spectra exStoreC2 exStoreC2 (1/1000) [0] 1 = some resX ∧
    ¬ |resX.mzi 0 0 - 1| ≤ 1/1000000000 ∧
    resX.mzc 0 0 = 4 ∧
    ([[((100 : ℚ), (9 : ℚ)), ((100 : ℚ), (16 : ℚ))]].getD 0 []).length = 2 ∧
    resX.mzc 0 0 ≠ 2 := by
  refine ⟨discretize_exStoreC2, score_eval_X, ?_, resX_mzc, rfl,
    by rw [resX_mzc]; norm_num⟩
  rw [resX_mzi, show (49:ℝ)/25 - 1 = 24/25 by norm_num, abs_of_pos (by norm_num)]
  norm_num

end Blink

